import Mathlib

/-!
# Copy-on-write pointer `CowPtr<T>` (cow_ptr.h)

A shallow embedding of the class template `CowPtr<T>` and of the scenarios of
`cow_test.cc`.

* An instance managed by a `std::shared_ptr<T>` is identified by its index in
  `World.heap`; a `shared_ptr` is an `Option Nat` (`none` is the empty pointer).
  `std::make_shared` appends to the heap, so a new instance never has the
  identity of one that exists.
* A `CowPtr` object is identified by a natural number; `World.handles` maps the
  identity of every live object to its two data members `mode_` and `ptr_`.
* Every member function is a function on worlds.  Undefined behaviour and a
  failing `assert` are results `Except.error`.
* The world functions are the sequential executions: the mutexes are free when
  a member function is entered and every acquisition succeeds.  The acquisition
  loop of the two assignment operators is embedded separately (`Locks`), with
  the outcomes of `try_lock` as a parameter.
-/

namespace Cow

/-- The enumeration of `mode_`. -/
inductive Mode where
  | COW_SHARED
  | COW_PRIVATE
deriving DecidableEq, Repr

/-- The data members of a `CowPtr<T>` (the mutex apart). -/
structure CowPtr where
  mode_ : Mode
  ptr_ : Option Nat
deriving DecidableEq, Repr

/-- Ways in which a call does not complete. -/
inductive Fault where
  /-- `*ptr_` evaluated on a pointer that refers to no instance. -/
  | badDeref
  /-- `assert(&orig != this)` fails. -/
  | assertFailed
  /-- The call is not well formed: an operand object is not alive, or an object
  is constructed where one is alive. -/
  | noObject
deriving DecidableEq, Repr

/-- Instances of `T` owned through `shared_ptr`, and the live `CowPtr` objects. -/
structure World (T : Type) where
  heap : List T
  handles : Nat → Option CowPtr

variable {T : Type}

/-- The world without instances and without objects. -/
def World.empty : World T := ⟨[], fun _ => none⟩

/-- Overwrite (or remove, with `none`) the object `h`. -/
def World.setHandle (w : World T) (h : Nat) (c : Option CowPtr) : World T :=
  { w with handles := fun k => if k = h then c else w.handles k }

/-- `std::make_shared<T>(v)`: a new instance holding a copy of `v`. -/
def make_shared (w : World T) (v : T) : World T × Nat :=
  ({ w with heap := w.heap ++ [v] }, w.heap.length)

/-- `*p` for a non-empty pointer `p`, read. -/
def World.deref (w : World T) (p : Nat) : Option T := w.heap[p]?

/-- `*p = v` for a pointer obtained from `put()`. -/
def World.store (w : World T) (p : Nat) (v : T) : World T :=
  { w with heap := w.heap.set p v }

/-- `CowPtr()` constructing object `h`. -/
def defaultCtor (w : World T) (h : Nat) : Except Fault (World T) :=
  match w.handles h with
  | some _ => .error .noObject
  | none => .ok (w.setHandle h (some ⟨.COW_SHARED, none⟩))

/-- `CowPtr(const CowPtr<T>& orig)` constructing object `h`. -/
def copyCtor (w : World T) (h orig : Nat) : Except Fault (World T) :=
  match w.handles h, w.handles orig with
  | none, some o =>
    let w1 := w.setHandle h (some ⟨.COW_SHARED, o.ptr_⟩)
    .ok (w1.setHandle orig (some { o with mode_ := .COW_SHARED }))
  | _, _ => .error .noObject

/-- `CowPtr(CowPtr&& orig)` constructing object `h`; the moved-from
`shared_ptr` is empty. -/
def moveCtor (w : World T) (h orig : Nat) : Except Fault (World T) :=
  match w.handles h, w.handles orig with
  | none, some o =>
    let w1 := w.setHandle h (some ⟨o.mode_, o.ptr_⟩)
    .ok (w1.setHandle orig (some { o with ptr_ := none }))
  | _, _ => .error .noObject

/-- `explicit CowPtr(const std::shared_ptr<T>& ptr)` constructing object `h`. -/
def valueCtor (w : World T) (h : Nat) (ptr : Option Nat) : Except Fault (World T) :=
  match w.handles h with
  | some _ => .error .noObject
  | none => .ok (w.setHandle h (some ⟨.COW_PRIVATE, ptr⟩))

/-- `explicit CowPtr(std::shared_ptr<T>&& ptr)` constructing object `h`; the
second component is the caller's pointer after the move. -/
def valueCtorMove (w : World T) (h : Nat) (ptr : Option Nat) :
    Except Fault (World T × Option Nat) :=
  match w.handles h with
  | some _ => .error .noObject
  | none => .ok (w.setHandle h (some ⟨.COW_PRIVATE, ptr⟩), none)

/-- `CowPtr<T>& operator=(const CowPtr<T>& orig)` called on object `t`. -/
def copyAssign (w : World T) (t orig : Nat) : Except Fault (World T) :=
  match w.handles t, w.handles orig with
  | some _, some o =>
    if orig = t then .error .assertFailed
    else
      let w1 := w.setHandle t (some ⟨.COW_SHARED, o.ptr_⟩)
      .ok (w1.setHandle orig (some { o with mode_ := .COW_SHARED }))
  | _, _ => .error .noObject

/-- `CowPtr<T>& operator=(CowPtr<T>&& orig)` called on object `t`. -/
def moveAssign (w : World T) (t orig : Nat) : Except Fault (World T) :=
  match w.handles t, w.handles orig with
  | some _, some o =>
    if orig = t then .error .assertFailed
    else
      let w1 := w.setHandle t (some ⟨o.mode_, o.ptr_⟩)
      .ok (w1.setHandle orig (some { o with ptr_ := none }))
  | _, _ => .error .noObject

/-- `void assign(const std::shared_ptr<T>& ptr)` called on object `h`. -/
def assign (w : World T) (h : Nat) (ptr : Option Nat) : Except Fault (World T) :=
  match w.handles h with
  | none => .error .noObject
  | some _ => .ok (w.setHandle h (some ⟨.COW_PRIVATE, ptr⟩))

/-- `void assign(std::shared_ptr<T>&& ptr)` called on object `h`; the second
component is the caller's pointer after the move. -/
def assignMove (w : World T) (h : Nat) (ptr : Option Nat) :
    Except Fault (World T × Option Nat) :=
  match w.handles h with
  | none => .error .noObject
  | some _ => .ok (w.setHandle h (some ⟨.COW_PRIVATE, ptr⟩), none)

/-- `explicit operator bool() const` called on object `h`. -/
def operatorBool (w : World T) (h : Nat) : Except Fault (World T × Bool) :=
  match w.handles h with
  | none => .error .noObject
  | some c => .ok (w, if c.ptr_.isSome then true else false)

/-- `std::shared_ptr<const T> get() const` called on object `h`. -/
def get (w : World T) (h : Nat) : Except Fault (World T × Option Nat) :=
  match w.handles h with
  | none => .error .noObject
  | some c => .ok (w, c.ptr_)

/-- `std::shared_ptr<T> put()` called on object `h`. -/
def put (w : World T) (h : Nat) : Except Fault (World T × Option Nat) :=
  match w.handles h with
  | none => .error .noObject
  | some c =>
    if c.mode_ = .COW_SHARED then
      match c.ptr_ with
      | none => .error .badDeref
      | some p =>
        match w.deref p with
        | none => .error .badDeref
        | some v =>
          let r := make_shared w v
          .ok (r.1.setHandle h (some ⟨.COW_PRIVATE, some r.2⟩), some r.2)
    else .ok (w, c.ptr_)

/-- The destructor of object `h`. -/
def destroy (w : World T) (h : Nat) : Except Fault (World T) :=
  match w.handles h with
  | none => .error .noObject
  | some _ => .ok (w.setHandle h none)

/-- The value seen through `*(h.get())`; `none` when the view is absent. -/
def readValue (w : World T) (h : Nat) : Option T :=
  match get w h with
  | .ok (w1, some p) => w1.deref p
  | _ => none

/-- The object `h` is alive and references the instance `p`, whose content is `v`. -/
def Holds (w : World T) (h p : Nat) (v : T) : Prop :=
  ∃ c, w.handles h = some c ∧ c.ptr_ = some p ∧ w.deref p = some v

/-! ## Sequences of public operations -/

/-- A call of the public interface, or a write through a pointer obtained from
`put()`.  Value construction and `assign` receive a pointer that has just been
obtained from `std::make_shared<T>(v)`. -/
inductive Op (T : Type) where
  | defaultCtor (h : Nat)
  | copyCtor (h orig : Nat)
  | moveCtor (h orig : Nat)
  | valueCtor (h : Nat) (v : T)
  | valueCtorMove (h : Nat) (v : T)
  | copyAssign (t orig : Nat)
  | moveAssign (t orig : Nat)
  | assign (h : Nat) (v : T)
  | assignMove (h : Nat) (v : T)
  | operatorBool (h : Nat)
  | get (h : Nat)
  | put (h : Nat)
  | destroy (h : Nat)
  | store (p : Nat) (v : T)

/-- Run one operation. -/
def exec (w : World T) : Op T → Except Fault (World T)
  | .defaultCtor h => defaultCtor w h
  | .copyCtor h orig => copyCtor w h orig
  | .moveCtor h orig => moveCtor w h orig
  | .valueCtor h v => valueCtor (make_shared w v).1 h (some (make_shared w v).2)
  | .valueCtorMove h v =>
    (valueCtorMove (make_shared w v).1 h (some (make_shared w v).2)).map Prod.fst
  | .copyAssign t orig => copyAssign w t orig
  | .moveAssign t orig => moveAssign w t orig
  | .assign h v => assign (make_shared w v).1 h (some (make_shared w v).2)
  | .assignMove h v =>
    (assignMove (make_shared w v).1 h (some (make_shared w v).2)).map Prod.fst
  | .operatorBool h => (operatorBool w h).map Prod.fst
  | .get h => (get w h).map Prod.fst
  | .put h => (put w h).map Prod.fst
  | .destroy h => destroy w h
  | .store p v => .ok (w.store p v)

/-- Run a sequence of operations, stopping at the first one that does not
complete. -/
def run (w : World T) : List (Op T) → Except Fault (World T)
  | [] => .ok w
  | op :: ops =>
    match exec w op with
    | .ok w1 => run w1 ops
    | .error e => .error e

/-- A world that a program can reach from the empty one. -/
def Reachable (w : World T) : Prop :=
  ∃ ops : List (Op T), run World.empty ops = .ok w

/-- The world reached by `CowPtr<int> h0(std::make_shared<int>(7));
CowPtr<int> h1(h0); CowPtr<int> h2(h1); *(h1.put()) = 9;`. -/
def sharedWorld : World Nat :=
  match run World.empty [.valueCtor 0 7, .copyCtor 1 0, .copyCtor 2 1, .put 1, .store 1 9] with
  | .ok w => w
  | .error _ => World.empty

/-- Every pointer held by a live handle refers to an instance of the heap. -/
def PtrsValid (w : World T) : Prop :=
  ∀ k c p, w.handles k = some c → c.ptr_ = some p → p < w.heap.length

/-- A live handle in Exclusive mode that holds a value is the only live handle
referencing that instance. -/
def ExclusiveUnique (w : World T) : Prop :=
  ∀ h k c d p, w.handles h = some c → c.mode_ = .COW_PRIVATE → c.ptr_ = some p →
    w.handles k = some d → d.ptr_ = some p → k = h

/-- The invariant kept by every public operation. -/
def Inv (w : World T) : Prop := PtrsValid w ∧ ExclusiveUnique w

/-- The object `k` is alive, Shared, and references the instance `p`, whose
content is `v`. -/
def SharedAt (w : World T) (k p : Nat) (v : T) : Prop :=
  w.handles k = some ⟨.COW_SHARED, some p⟩ ∧ w.deref p = some v

/-- A world with one instance holding `7`, referenced by the Exclusive object
`0`: the state after `CowPtr<int> h0(std::make_shared<int>(7))`. -/
def demoWorld : World Nat :=
  ⟨[7], fun k => if k = 0 then some ⟨.COW_PRIVATE, some 0⟩ else none⟩

/-- A world with two instances and two live objects, `0` Exclusive and `1`
Shared. -/
def demoWorld2 : World Nat :=
  ⟨[7, 8], fun k => if k = 0 then some ⟨.COW_PRIVATE, some 0⟩
    else if k = 1 then some ⟨.COW_SHARED, some 1⟩ else none⟩

/-! ## The container of handles of `map_test` -/

/-- `map_test_t m1(m0)`: an entry `(k, a, b)` is the key `k`, the object `a`
stored under `k` in `m0` and the object `b` constructed under `k` in `m1`. -/
def copyMap (w : World T) : List (Int × Nat × Nat) → Except Fault (World T)
  | [] => .ok w
  | (_, a, b) :: es =>
    match copyCtor w b a with
    | .ok w1 => copyMap w1 es
    | .error e => .error e

/-- The loop `if (i % 2 == 0) *(m1[i].put()) = f i` over the entries. -/
def writeEven (f : Int → T) (w : World T) : List (Int × Nat × Nat) → Except Fault (World T)
  | [] => .ok w
  | (k, _, b) :: es =>
    if k % 2 = 0 then
      match put w b with
      | .ok (w1, some q) => writeEven f (w1.store q (f k)) es
      | .ok (_, none) => .error .badDeref
      | .error e => .error e
    else writeEven f w es

/-- The pointer held by object `h`. -/
def ptrOf (w : World T) (h : Nat) : Option Nat :=
  match w.handles h with
  | some c => c.ptr_
  | none => none

/-! ## The acquisition loop of the two assignment operators -/

/-- Which of the two mutexes the calling thread holds, and how many `try_lock`
calls it has made. -/
structure Locks where
  orig : Bool
  self : Bool
  calls : Nat
deriving DecidableEq, Repr

/-- One execution of the body of the `do` statement; `tryLock i` is the
outcome of the `i`-th `try_lock` call.  Both `continue` statements end the
body. -/
def acquireBody (tryLock : Nat → Bool) (l : Locks) : Locks :=
  if !tryLock l.calls then
    { l with calls := l.calls + 1 }
  else
    let l1 : Locks := { l with orig := true, calls := l.calls + 1 }
    if !tryLock l1.calls then
      { l1 with orig := false, calls := l1.calls + 1 }
    else
      { l1 with self := true, calls := l1.calls + 1 }

/-- The statement `do body while (cond)`: after the body, also when it is ended by
`continue`, the condition is evaluated and the body is repeated only when
it holds. -/
def doWhile {σ : Type} (cond : σ → Bool) (body : σ → σ) : Nat → σ → σ
  | 0, s => s
  | fuel + 1, s => if cond (body s) then doWhile cond body fuel (body s) else body s

/-- The loop `do { ... } while (0);` of `operator=`, entered with no mutex held. -/
def acquire (tryLock : Nat → Bool) (fuel : Nat) : Locks :=
  doWhile (fun _ => false) (acquireBody tryLock) fuel ⟨false, false, 0⟩

/-- What the rest of `operator=` does with the mutexes: the two data members
are updated while `updateHeldOrig`/`updateHeldSelf` tell which mutexes are
held, and `unlockSelfOk`/`unlockOrigOk` tell whether each `unlock()` releases
a mutex the caller holds. -/
structure AssignTrace where
  updateHeldOrig : Bool
  updateHeldSelf : Bool
  unlockSelfOk : Bool
  unlockOrigOk : Bool
deriving DecidableEq, Repr

/-- The lock usage of `operator=(const CowPtr<T>&)`: the loop, the updates of
`mode_`, `ptr_` and `orig.mode_`, `mutex_.unlock()`, `orig.mutex_.unlock()`. -/
def copyAssignLocks (tryLock : Nat → Bool) (fuel : Nat) : AssignTrace :=
  let l := acquire tryLock fuel
  ⟨l.orig, l.self, l.self, l.orig⟩

/-- The lock usage of `operator=(CowPtr<T>&&)`: the loop, the updates of
`mode_` and `ptr_`, `mutex_.unlock()`, `orig.mutex_.unlock()`. -/
def moveAssignLocks (tryLock : Nat → Bool) (fuel : Nat) : AssignTrace :=
  let l := acquire tryLock fuel
  ⟨l.orig, l.self, l.self, l.orig⟩

/-! ## The linked list of `list_test`

`struct List { CowPtr<List> next; std::string s; }` holds a `CowPtr` itself, so
its implicit copy constructor copy-constructs `next`, which writes the mode of
the `next` of the instance being copied. -/

namespace ListTest

/-- An instance of `struct List`. -/
structure Node where
  next : CowPtr
  s : String
deriving DecidableEq, Repr

/-- The instances of `List`, and the `CowPtr<List>` objects that are local
variables (`head`, `head2`). -/
structure LWorld where
  heap : List Node
  vars : Nat → Option CowPtr

/-- Where a `CowPtr<List>` object lives: a local variable, or the member `next`
of the instance `a`. -/
inductive Loc where
  | var (x : Nat)
  | next (a : Nat)
deriving DecidableEq, Repr

/-- The data members of the object at a place. -/
def LWorld.handle (w : LWorld) : Loc → Option CowPtr
  | .var x => w.vars x
  | .next a =>
    match w.heap[a]? with
    | some nd => some nd.next
    | none => none

/-- Overwrite the data members of the object at a place. -/
def LWorld.setHandle (w : LWorld) : Loc → CowPtr → LWorld
  | .var x, c => { w with vars := fun k => if k = x then some c else w.vars k }
  | .next a, c =>
    match w.heap[a]? with
    | some nd => { w with heap := w.heap.set a { nd with next := c } }
    | none => w

/-- `std::make_shared<List>()`: a new instance, `next` default-constructed and
`s` empty. -/
def make_shared_default (w : LWorld) : LWorld × Nat :=
  ({ w with heap := w.heap ++ [⟨⟨.COW_SHARED, none⟩, ""⟩] }, w.heap.length)

/-- `std::make_shared<List>(*ptr)` for `ptr` referring to instance `p`: the
implicit copy constructor copy-constructs `next` from `p`'s `next` (the new
`next` is Shared with the same pointer, `p`'s `next` becomes Shared) and copies
`s`. -/
def make_shared_copy (w : LWorld) (p : Nat) : Except Fault (LWorld × Nat) :=
  match w.heap[p]? with
  | none => .error .badDeref
  | some nd =>
    let w1 : LWorld :=
      { w with heap := w.heap.set p { nd with next := { nd.next with mode_ := .COW_SHARED } } }
    .ok ({ w1 with heap := w1.heap ++ [⟨⟨.COW_SHARED, nd.next.ptr_⟩, nd.s⟩] }, w1.heap.length)

/-- `CowPtr(const CowPtr<T>& orig)` constructing the local variable `x` from the
object at `orig`. -/
def copyCtor (w : LWorld) (x : Nat) (orig : Loc) : Except Fault LWorld :=
  match w.vars x, w.handle orig with
  | none, some o =>
    let w1 := w.setHandle (.var x) ⟨.COW_SHARED, o.ptr_⟩
    .ok (w1.setHandle orig { o with mode_ := .COW_SHARED })
  | _, _ => .error .noObject

/-- `explicit CowPtr(const std::shared_ptr<T>& ptr)` constructing the local
variable `x`. -/
def valueCtor (w : LWorld) (x : Nat) (ptr : Option Nat) : Except Fault LWorld :=
  match w.vars x with
  | some _ => .error .noObject
  | none => .ok (w.setHandle (.var x) ⟨.COW_PRIVATE, ptr⟩)

/-- `operator=(CowPtr<T>&& orig)` on the object at `t`, for `orig` a temporary
with data members `tmp` (destroyed afterwards). -/
def moveAssignTemp (w : LWorld) (t : Loc) (tmp : CowPtr) : Except Fault LWorld :=
  match w.handle t with
  | none => .error .noObject
  | some _ => .ok (w.setHandle t ⟨tmp.mode_, tmp.ptr_⟩)

/-- `std::shared_ptr<const T> get() const` on the object at `l`. -/
def get (w : LWorld) (l : Loc) : Except Fault (LWorld × Option Nat) :=
  match w.handle l with
  | none => .error .noObject
  | some c => .ok (w, c.ptr_)

/-- `std::shared_ptr<T> put()` on the object at `l`. -/
def put (w : LWorld) (l : Loc) : Except Fault (LWorld × Option Nat) :=
  match w.handle l with
  | none => .error .noObject
  | some c =>
    if c.mode_ = .COW_SHARED then
      match c.ptr_ with
      | none => .error .badDeref
      | some p =>
        match make_shared_copy w p with
        | .error e => .error e
        | .ok (w1, q) => .ok (w1.setHandle l ⟨.COW_PRIVATE, some q⟩, some q)
    else .ok (w, c.ptr_)

/-- `q->s = x` for a pointer `q`. -/
def storeS (w : LWorld) (q : Nat) (x : String) : Except Fault LWorld :=
  match w.heap[q]? with
  | none => .error .badDeref
  | some nd => .ok { w with heap := w.heap.set q { nd with s := x } }

/-- `p->put()->s = x`. -/
def putS (w : LWorld) (p : Loc) (x : String) : Except Fault LWorld :=
  match put w p with
  | .ok (w1, some q) => storeS w1 q x
  | .ok (_, none) => .error .badDeref
  | .error e => .error e

/-- `p = &(p->put()->next)`. -/
def putNext (w : LWorld) (p : Loc) : Except Fault (LWorld × Loc) :=
  match put w p with
  | .ok (w1, some q) => .ok (w1, .next q)
  | .ok (_, none) => .error .badDeref
  | .error e => .error e

/-- `p->put()->next = std::move(List::ptr(std::make_shared<List>()))`; the right
operand is evaluated first. -/
def putNextAssign (w : LWorld) (p : Loc) : Except Fault LWorld :=
  let r := make_shared_default w
  match put r.1 p with
  | .ok (w1, some q) => moveAssignTemp w1 (.next q) ⟨.COW_PRIVATE, some r.2⟩
  | .ok (_, none) => .error .badDeref
  | .error e => .error e

/-- The first loop of `list_test`, one iteration for each string. -/
def buildLoop (w : LWorld) (p : Loc) : List String → Except Fault (LWorld × Loc)
  | [] => .ok (w, p)
  | x :: xs =>
    match putS w p x with
    | .error e => .error e
    | .ok w1 =>
      match putNextAssign w1 p with
      | .error e => .error e
      | .ok w2 =>
        match putNext w2 p with
        | .error e => .error e
        | .ok (w3, p3) => buildLoop w3 p3 xs

/-- `List::ptr head(std::make_shared<List>())` followed by the first loop. -/
def build (head : Nat) (xs : List String) : Except Fault LWorld :=
  let r := make_shared_default (⟨[], fun _ => none⟩ : LWorld)
  match valueCtor r.1 head (some r.2) with
  | .error e => .error e
  | .ok w1 =>
    match buildLoop w1 (.var head) xs with
    | .error e => .error e
    | .ok (w2, _) => .ok w2

/-- The loop `for (i < n) p = &(p->put()->next);`. -/
def descend (w : LWorld) (p : Loc) : Nat → Except Fault (LWorld × Loc)
  | 0 => .ok (w, p)
  | n + 1 =>
    match putNext w p with
    | .error e => .error e
    | .ok (w1, p1) => descend w1 p1 n

/-- `List::ptr head2(head); p = &head2; for (i < n) p = &(p->put()->next);
p->put()->s = x;`. -/
def pathCopy (w : LWorld) (head head2 n : Nat) (x : String) : Except Fault LWorld :=
  match copyCtor w head2 (.var head) with
  | .error e => .error e
  | .ok w1 =>
    match descend w1 (.var head2) n with
    | .error e => .error e
    | .ok (w2, p) => putS w2 p x

/-- The instances and strings met from a pointer by following `next.get()`
until it is empty, as `List::str()` does; `none` when `fuel` instances do not
reach the end. -/
def walk (w : LWorld) : Nat → Option Nat → Option (List (Nat × String))
  | 0, _ => none
  | _ + 1, none => some []
  | fuel + 1, some a =>
    match w.heap[a]? with
    | none => none
    | some nd =>
      match walk w fuel nd.next.ptr_ with
      | none => none
      | some r => some ((a, nd.s) :: r)

/-- The list read from the local variable `x`. -/
def walkVar (w : LWorld) (fuel x : Nat) : Option (List (Nat × String)) :=
  match get w (.var x) with
  | .ok (w1, p) => walk w1 fuel p
  | .error _ => none

/-- From the pointer `p`, following `next`, one meets exactly the instances
and strings of `l` and then the empty pointer. -/
def Chain (w : LWorld) : Option Nat → List (Nat × String) → Prop
  | p, [] => p = none
  | p, e :: r => p = some e.1 ∧ ∃ nd, w.heap[e.1]? = some nd ∧ nd.s = e.2 ∧ Chain w nd.next.ptr_ r

/-- The list expected from `head2` after the path copy: the first `n + 1`
entries are the new instances `L, L + 1, ...` with the old strings, except for
the string `x` at position `n`; the rest is the old list. -/
def copiedPath (L : Nat) (x : String) : Nat → List (Nat × String) → List (Nat × String)
  | _, [] => []
  | 0, _ :: r => (L, x) :: r
  | n + 1, e :: r => (L, e.2) :: copiedPath (L + 1) x n r

end ListTest

/-! ## Basic facts -/

@[simp] theorem setHandle_handles (w : World T) (h k : Nat) (c : Option CowPtr) :
    (w.setHandle h c).handles k = if k = h then c else w.handles k := rfl

@[simp] theorem make_shared_handles (w : World T) (v : T) :
    (make_shared w v).1.handles = w.handles := rfl

@[simp] theorem make_shared_heap (w : World T) (v : T) :
    (make_shared w v).1.heap = w.heap ++ [v] := rfl

@[simp] theorem make_shared_snd (w : World T) (v : T) :
    (make_shared w v).2 = w.heap.length := rfl

@[simp] theorem store_heap (w : World T) (p : Nat) (v : T) :
    (w.store p v).heap = w.heap.set p v := rfl

@[simp] theorem setHandle_heap (w : World T) (h : Nat) (c : Option CowPtr) :
    (w.setHandle h c).heap = w.heap := rfl

@[simp] theorem store_handles (w : World T) (p : Nat) (v : T) :
    (w.store p v).handles = w.handles := rfl

theorem deref_lt {w : World T} {p : Nat} {v : T} (h : w.deref p = some v) :
    p < w.heap.length := by
  unfold World.deref at h
  exact (List.getElem?_eq_some_iff.mp h).1

theorem deref_store_same (w : World T) (p : Nat) (v : T) (h : p < w.heap.length) :
    (w.store p v).deref p = some v := by
  simp [World.store, World.deref, h]

theorem deref_store_ne (w : World T) (p q : Nat) (v : T) (h : q ≠ p) :
    (w.store p v).deref q = w.deref q := by
  simp [World.store, World.deref, List.getElem?_set_ne (Ne.symm h)]

theorem deref_make_shared_old (w : World T) (v : T) (q : Nat) (h : q < w.heap.length) :
    (make_shared w v).1.deref q = w.deref q := by
  simp [make_shared, World.deref, List.getElem?_append_left h]

theorem deref_make_shared_new (w : World T) (v : T) :
    (make_shared w v).1.deref (make_shared w v).2 = some v := by
  simp [make_shared, World.deref]

theorem readValue_eq (w : World T) (h : Nat) (c : CowPtr) (p : Nat)
    (hc : w.handles h = some c) (hp : c.ptr_ = some p) :
    readValue w h = w.deref p := by
  simp [readValue, get, hc, hp]

theorem copyCtor_ok (w : World T) (h orig : Nat) (o : CowPtr)
    (hh : w.handles h = none) (ho : w.handles orig = some o) :
    copyCtor w h orig = .ok ((w.setHandle h (some ⟨.COW_SHARED, o.ptr_⟩)).setHandle orig
      (some ⟨.COW_SHARED, o.ptr_⟩)) := by
  simp [copyCtor, hh, ho]

theorem moveCtor_ok (w : World T) (h orig : Nat) (o : CowPtr)
    (hh : w.handles h = none) (ho : w.handles orig = some o) :
    moveCtor w h orig = .ok ((w.setHandle h (some ⟨o.mode_, o.ptr_⟩)).setHandle orig
      (some ⟨o.mode_, none⟩)) := by
  simp [moveCtor, hh, ho]

theorem copyAssign_ok (w : World T) (t orig : Nat) (c o : CowPtr)
    (ht : w.handles t = some c) (ho : w.handles orig = some o) (hne : orig ≠ t) :
    copyAssign w t orig = .ok ((w.setHandle t (some ⟨.COW_SHARED, o.ptr_⟩)).setHandle orig
      (some ⟨.COW_SHARED, o.ptr_⟩)) := by
  simp [copyAssign, ht, ho, hne]

theorem moveAssign_ok (w : World T) (t orig : Nat) (c o : CowPtr)
    (ht : w.handles t = some c) (ho : w.handles orig = some o) (hne : orig ≠ t) :
    moveAssign w t orig = .ok ((w.setHandle t (some ⟨o.mode_, o.ptr_⟩)).setHandle orig
      (some ⟨o.mode_, none⟩)) := by
  simp [moveAssign, ht, ho, hne]

theorem put_shared (w : World T) (h p : Nat) (c : CowPtr) (v : T)
    (hc : w.handles h = some c) (hm : c.mode_ = .COW_SHARED) (hp : c.ptr_ = some p)
    (hv : w.deref p = some v) :
    put w h = .ok ((make_shared w v).1.setHandle h (some ⟨.COW_PRIVATE, some w.heap.length⟩),
      some w.heap.length) := by
  simp [put, hc, hm, hp, hv, make_shared]

theorem put_private (w : World T) (h : Nat) (c : CowPtr)
    (hc : w.handles h = some c) (hm : c.mode_ = .COW_PRIVATE) :
    put w h = .ok (w, c.ptr_) := by
  simp [put, hc, hm]

/-- C1. Sharing-then-write isolation: when `a` holds `v` and `b` is
copy-constructed from `a`, `b.put()` succeeds and returns an instance `q`;
after `x` is written to `q`, `a.get()` reads `v` and `b.get()` reads `x`. -/
theorem sharing_then_write_isolation (w : World T) (a b p : Nat) (v x : T)
    (ha : Holds w a p v) (hb : w.handles b = none) :
    ∃ w1 w2 q, copyCtor w b a = .ok w1 ∧ put w1 b = .ok (w2, some q) ∧
      readValue (w2.store q x) a = some v ∧ readValue (w2.store q x) b = some x := by
  obtain ⟨c, hc, hp, hv⟩ := ha
  have hab : a ≠ b := by
    rintro rfl
    simp [hb] at hc
  have hlt := deref_lt hv
  refine ⟨_, _, _, copyCtor_ok w b a c hb hc, put_shared _ b p ⟨.COW_SHARED, c.ptr_⟩ v ?_ rfl hp ?_,
    ?_, ?_⟩
  · simp [hab.symm]
  · exact hv
  · rw [readValue_eq _ a ⟨.COW_SHARED, c.ptr_⟩ p (by simp [hab]) hp]
    rw [deref_store_ne _ _ _ _ (by simp; omega)]
    simp only [World.deref, setHandle_heap] at hv ⊢
    simp [List.getElem?_append_left hlt, hv]
  · rw [readValue_eq _ b ⟨.COW_PRIVATE, some w.heap.length⟩ w.heap.length (by simp) rfl]
    simp [World.deref]

open ListTest in
example : (match build 0 ["a", "b", "c"] with
    | .ok w => walkVar w 10 0 | .error _ => none) = some [(0, "a"), (1, "b"), (2, "c"), (3, "")] := by
  decide

/-- C2. Write access on a handle that holds a value.  In Shared mode `put()`
returns an instance `q` that did not exist before, with the content the handle
referenced, the handle becomes `(Exclusive, q)`, and every instance that
existed (the old one included) keeps its content.  In Exclusive mode `put()`
returns the referenced instance and the world is unchanged. -/
theorem put_write_access (w : World T) (h p : Nat) (c : CowPtr) (v : T)
    (hc : w.handles h = some c) (hp : c.ptr_ = some p) (hv : w.deref p = some v) :
    (c.mode_ = .COW_SHARED →
      ∃ w1 q, put w h = .ok (w1, some q) ∧
        w.deref q = none ∧ q ≠ p ∧
        w1.deref q = some v ∧
        w1.handles h = some ⟨.COW_PRIVATE, some q⟩ ∧
        (∀ r, r ≠ q → w1.deref r = w.deref r) ∧
        w1.deref p = some v) ∧
    (c.mode_ = .COW_PRIVATE →
      put w h = .ok (w, some p) ∧ w.handles h = some ⟨.COW_PRIVATE, some p⟩) := by
  have hlt := deref_lt hv
  constructor
  · intro hm
    refine ⟨_, _, put_shared w h p c v hc hm hp hv, ?_, ?_, ?_, ?_, ?_, ?_⟩
    · simp [World.deref]
    · omega
    · simp [World.deref]
    · simp
    · intro r hr
      simp only [World.deref, setHandle_heap, make_shared_heap]
      by_cases hlt2 : r < w.heap.length
      · simp [List.getElem?_append_left hlt2]
      · have h1 : w.heap.length < r := by omega
        simp [List.getElem?_eq_none, Nat.le_of_lt h1]
        omega
    · simp only [World.deref, setHandle_heap, make_shared_heap] at hv ⊢
      simp [List.getElem?_append_left hlt, hv]
  · intro hm
    refine ⟨?_, ?_⟩
    · rw [put_private w h c hc hm, hp]
    · rw [hc, ← hm, ← hp]

/-- C4. Duplicate postcondition: copy-constructing `b` from `a` succeeds, `b`
and `a` both become `(Shared, a's pointer)`, the heap (the instances and their
contents) is the same, and every other object is unchanged. -/
theorem copyCtor_postcondition (w : World T) (a b : Nat) (o : CowPtr)
    (ha : w.handles a = some o) (hb : w.handles b = none) :
    ∃ w1, copyCtor w b a = .ok w1 ∧
      w1.handles b = some ⟨.COW_SHARED, o.ptr_⟩ ∧
      w1.handles a = some ⟨.COW_SHARED, o.ptr_⟩ ∧
      w1.heap = w.heap ∧
      ∀ k, k ≠ a → k ≠ b → w1.handles k = w.handles k := by
  have hab : a ≠ b := by
    rintro rfl
    simp [hb] at ha
  refine ⟨_, copyCtor_ok w b a o hb ha, ?_, ?_, rfl, ?_⟩
  · simp [hab.symm]
  · simp
  · intro k h1 h2
    simp [h1, h2]

/-- C5. Duplication demotes the source: after `b` is copy-constructed from the
Exclusive handle `a` holding instance `p`, `a.put()` returns an instance `q`
that did not exist before, different from `p`, with `p`'s content, while `b`
still references `p` and reads the same value. -/
theorem duplication_demotes_source (w : World T) (a b p : Nat) (v : T)
    (ha : w.handles a = some ⟨.COW_PRIVATE, some p⟩) (hv : w.deref p = some v)
    (hb : w.handles b = none) :
    ∃ w1 w2 q, copyCtor w b a = .ok w1 ∧ put w1 a = .ok (w2, some q) ∧
      q ≠ p ∧ w1.deref q = none ∧ w2.deref q = some v ∧
      w2.handles a = some ⟨.COW_PRIVATE, some q⟩ ∧
      w2.handles b = some ⟨.COW_SHARED, some p⟩ ∧
      readValue w1 b = some v ∧ readValue w2 b = some v := by
  have hab : a ≠ b := by
    rintro rfl
    simp [hb] at ha
  have hlt := deref_lt hv
  refine ⟨_, _, _, copyCtor_ok w b a _ hb ha,
    put_shared _ a p ⟨.COW_SHARED, some p⟩ v (by simp) rfl rfl hv, ?_, ?_, ?_, ?_, ?_, ?_, ?_⟩
  · simp; omega
  · simp [World.deref]
  · simp [World.deref]
  · simp
  · simp [hab.symm]
  · rw [readValue_eq _ b ⟨.COW_SHARED, some p⟩ p (by simp [hab.symm]) rfl]
    exact hv
  · rw [readValue_eq _ b ⟨.COW_SHARED, some p⟩ p (by simp [hab.symm]) rfl]
    simp only [World.deref, setHandle_heap, make_shared_heap] at hv ⊢
    simp [List.getElem?_append_left hlt, hv]

/-- C11. Read access is a pure observation: `get()` returns the pointer of the
handle (empty exactly when the handle holds no value) together with the very
same world. -/
theorem get_pure (w : World T) (h : Nat) (c : CowPtr) (hc : w.handles h = some c) :
    ∃ r, get w h = .ok (w, r) ∧ r = c.ptr_ ∧ (r = none ↔ c.ptr_ = none) := by
  refine ⟨c.ptr_, ?_, rfl, Iff.rfl⟩
  simp [get, hc]

theorem readValue_unfold (w : World T) (k : Nat) :
    readValue w k = (w.handles k).bind (fun c => c.ptr_.bind (fun p => w.deref p)) := by
  unfold readValue get
  cases hk : w.handles k with
  | none => rfl
  | some c =>
    cases hq : c.ptr_ with
    | none => simp [hq]
    | some p => simp [hq]

theorem readValue_congr (w w1 : World T) (k : Nat) (hh : w1.handles k = w.handles k)
    (hp : w1.heap = w.heap) : readValue w1 k = readValue w k := by
  simp [readValue_unfold, World.deref, hh, hp]

theorem defaultCtor_ok (w : World T) (h : Nat) (hh : w.handles h = none) :
    defaultCtor w h = .ok (w.setHandle h (some ⟨.COW_SHARED, none⟩)) := by
  simp [defaultCtor, hh]

theorem assign_ok (w : World T) (h : Nat) (c : CowPtr) (ptr : Option Nat)
    (hh : w.handles h = some c) :
    assign w h ptr = .ok (w.setHandle h (some ⟨.COW_PRIVATE, ptr⟩)) := by
  simp [assign, hh]

theorem operatorBool_ok (w : World T) (h : Nat) (c : CowPtr) (hh : w.handles h = some c) :
    operatorBool w h = .ok (w, c.ptr_.isSome) := by
  simp [operatorBool, hh]

/-- C7. Assign: both overloads of `assign` succeed on a live handle in any
mode, make it `(Exclusive, ptr)`, leave the heap and every other handle as
they were, so every other handle reads what it read before. -/
theorem assign_frame (w : World T) (h : Nat) (c : CowPtr) (ptr : Option Nat)
    (hc : w.handles h = some c) :
    ∃ w1, assign w h ptr = .ok w1 ∧ assignMove w h ptr = .ok (w1, none) ∧
      w1.handles h = some ⟨.COW_PRIVATE, ptr⟩ ∧
      w1.heap = w.heap ∧
      (∀ k, k ≠ h → w1.handles k = w.handles k) ∧
      (∀ k, k ≠ h → readValue w1 k = readValue w k) := by
  refine ⟨w.setHandle h (some ⟨.COW_PRIVATE, ptr⟩), ?_, ?_, ?_, rfl, ?_, ?_⟩
  · simp [assign, hc]
  · simp [assignMove, hc]
  · simp
  · intro k hk
    simp [hk]
  · intro k hk
    exact readValue_congr _ _ k (by simp [hk]) rfl

/-- C10. Duplicate-assign: for distinct live handles `t` and `s`, `t = s`
succeeds, both become `(Shared, s's pointer)`, the heap is the same, and every
other handle (those that shared `t`'s previous value included) is unchanged
and reads what it read before. -/
theorem copyAssign_postcondition (w : World T) (t s : Nat) (c o : CowPtr)
    (ht : w.handles t = some c) (hs : w.handles s = some o) (hne : s ≠ t) :
    ∃ w1, copyAssign w t s = .ok w1 ∧
      w1.handles t = some ⟨.COW_SHARED, o.ptr_⟩ ∧
      w1.handles s = some ⟨.COW_SHARED, o.ptr_⟩ ∧
      w1.heap = w.heap ∧
      (∀ k, k ≠ t → k ≠ s → w1.handles k = w.handles k) ∧
      (∀ k, k ≠ t → k ≠ s → readValue w1 k = readValue w k) := by
  refine ⟨_, copyAssign_ok w t s c o ht hs hne, ?_, ?_, rfl, ?_, ?_⟩
  · simp [hne.symm]
  · simp
  · intro k h1 h2
    simp [h1, h2]
  · intro k h1 h2
    exact readValue_congr _ _ k (by simp [h1, h2]) rfl

/-- C13. Write access on an empty handle: for a live handle whose pointer, when
not empty, refers to an instance, `put()` fails exactly when the handle is
Shared and holds no value, and then by dereferencing the empty pointer; `put()`
on a default-constructed handle fails. -/
theorem put_fails_iff (w : World T) (h k : Nat) (c : CowPtr)
    (hc : w.handles h = some c)
    (hvalid : ∀ p, c.ptr_ = some p → ∃ v, w.deref p = some v)
    (hk : w.handles k = none) :
    ((∃ e, put w h = .error e) ↔ (c.mode_ = .COW_SHARED ∧ c.ptr_ = none)) ∧
    (c.mode_ = .COW_SHARED → c.ptr_ = none → put w h = .error .badDeref) ∧
    (∃ w1, defaultCtor w k = .ok w1 ∧ put w1 k = .error .badDeref) := by
  refine ⟨?_, ?_, ⟨_, defaultCtor_ok w k hk, ?_⟩⟩
  · cases hm : c.mode_
    · cases hq : c.ptr_ with
      | none => simp [put, hc, hm, hq]
      | some p =>
        obtain ⟨v, hv⟩ := hvalid p hq
        simp [put, hc, hm, hq, hv]
    · simp [put, hc, hm]
  · intro hm hq
    simp [put, hc, hm, hq]
  · simp [put]

/-- C18. Move semantics: move-construction from `s`, and move-assignment to a
distinct live `t`, succeed, give the destination `s`'s mode and pointer, leave
`s` empty with its mode, keep the heap and every other handle; and on an empty
Exclusive handle (which is not the state after default construction) `put()`
returns the empty pointer and the same world. -/
theorem move_semantics (w : World T) (s t k : Nat) (o c : CowPtr)
    (hs : w.handles s = some o) (ht : w.handles t = some c) (hne : s ≠ t)
    (hk : w.handles k = none) :
    (∃ w1, moveCtor w k s = .ok w1 ∧
      w1.handles k = some ⟨o.mode_, o.ptr_⟩ ∧ w1.handles s = some ⟨o.mode_, none⟩ ∧
      w1.heap = w.heap ∧ (∀ j, j ≠ k → j ≠ s → w1.handles j = w.handles j) ∧
      (o.mode_ = .COW_PRIVATE → put w1 s = .ok (w1, none))) ∧
    (∃ w1, moveAssign w t s = .ok w1 ∧
      w1.handles t = some ⟨o.mode_, o.ptr_⟩ ∧ w1.handles s = some ⟨o.mode_, none⟩ ∧
      w1.heap = w.heap ∧ (∀ j, j ≠ t → j ≠ s → w1.handles j = w.handles j) ∧
      (o.mode_ = .COW_PRIVATE → put w1 s = .ok (w1, none))) ∧
    (∃ w1, defaultCtor w k = .ok w1 ∧ w1.handles k ≠ some ⟨.COW_PRIVATE, none⟩) := by
  have hsk : s ≠ k := by
    rintro rfl
    simp [hk] at hs
  refine ⟨⟨_, moveCtor_ok w k s o hk hs, ?_, ?_, rfl, ?_, ?_⟩,
    ⟨_, moveAssign_ok w t s c o ht hs hne, ?_, ?_, rfl, ?_, ?_⟩,
    ⟨_, defaultCtor_ok w k hk, ?_⟩⟩
  · simp [hsk.symm]
  · simp
  · intro j h1 h2
    simp [h1, h2]
  · intro hm
    exact put_private _ s ⟨o.mode_, none⟩ (by simp) hm
  · simp [hne.symm]
  · simp
  · intro j h1 h2
    simp [h1, h2]
  · intro hm
    exact put_private _ s ⟨o.mode_, none⟩ (by simp) hm
  · simp

/-! ## The exclusivity invariant -/

theorem inv_empty : Inv (World.empty : World T) := by
  constructor
  · intro k c p hc
    simp [World.empty] at hc
  · intro h k c d p hc
    simp [World.empty] at hc

theorem inv_share (w : World T) (x y : Nat) (o : CowPtr) (hy : w.handles y = some o)
    (hi : Inv w) :
    Inv ((w.setHandle x (some ⟨.COW_SHARED, o.ptr_⟩)).setHandle y
      (some ⟨.COW_SHARED, o.ptr_⟩)) := by
  obtain ⟨hv, hu⟩ := hi
  constructor
  · intro k c p hc hp
    simp only [setHandle_handles, setHandle_heap] at hc ⊢
    by_cases k1 : k = y
    · simp [k1] at hc
      subst hc
      exact hv y o p hy hp
    by_cases k2 : k = x
    · simp [k1, k2] at hc
      subst hc
      exact hv y o p hy hp
    simp only [k1, k2, if_false] at hc
    exact hv k c p hc hp
  · intro h k c d p hc hm hp hd hdp
    simp only [setHandle_handles] at hc hd
    by_cases h1 : h = y
    · simp [h1] at hc
      subst hc
      simp at hm
    by_cases h2 : h = x
    · simp [h1, h2] at hc
      subst hc
      simp at hm
    simp only [h1, h2, if_false] at hc
    by_cases k1 : k = y
    · simp [k1] at hd
      subst hd
      exact absurd (hu h y c o p hc hm hp hy hdp).symm h1
    by_cases k2 : k = x
    · simp [k1, k2] at hd
      subst hd
      exact absurd (hu h y c o p hc hm hp hy hdp).symm h1
    simp only [k1, k2, if_false] at hd
    exact hu h k c d p hc hm hp hd hdp

theorem inv_move (w : World T) (x y : Nat) (o : CowPtr) (hy : w.handles y = some o)
    (hxy : x ≠ y) (hi : Inv w) :
    Inv ((w.setHandle x (some ⟨o.mode_, o.ptr_⟩)).setHandle y (some ⟨o.mode_, none⟩)) := by
  obtain ⟨hv, hu⟩ := hi
  constructor
  · intro k c p hc hp
    simp only [setHandle_handles, setHandle_heap] at hc ⊢
    by_cases k1 : k = y
    · simp [k1] at hc
      subst hc
      simp at hp
    by_cases k2 : k = x
    · subst k2
      simp [k1] at hc
      subst hc
      exact hv y o p hy hp
    simp only [k1, k2, if_false] at hc
    exact hv k c p hc hp
  · intro h k c d p hc hm hp hd hdp
    simp only [setHandle_handles] at hc hd
    by_cases k1 : k = y
    · simp [k1] at hd
      subst hd
      simp at hdp
    by_cases h1 : h = y
    · simp [h1] at hc
      subst hc
      simp at hp
    simp only [h1, k1, if_false] at hc hd
    by_cases h2 : h = x
    · by_cases k2 : k = x
      · rw [h2, k2]
      · simp [h2] at hc
        subst hc
        simp only [k2, if_false] at hd
        exact absurd (hu y k o d p hy hm hp hd hdp) k1
    · simp only [h2, if_false] at hc
      by_cases k2 : k = x
      · simp [k2] at hd
        subst hd
        exact absurd (hu h y c o p hc hm hp hy hdp).symm h1
      · simp only [k2, if_false] at hd
        exact hu h k c d p hc hm hp hd hdp

theorem inv_fresh (w : World T) (x : Nat) (v : T) (hi : Inv w) :
    Inv ((make_shared w v).1.setHandle x (some ⟨.COW_PRIVATE, some (make_shared w v).2⟩)) := by
  obtain ⟨hv, hu⟩ := hi
  constructor
  · intro k c p hc hp
    simp only [setHandle_handles, setHandle_heap, make_shared_handles, make_shared_heap,
      make_shared_snd, List.length_append, List.length_singleton] at hc ⊢
    by_cases k1 : k = x
    · simp [k1] at hc
      subst hc
      simp at hp
      omega
    simp only [k1, if_false] at hc
    have := hv k c p hc hp
    omega
  · intro h k c d p hc hm hp hd hdp
    simp only [setHandle_handles, make_shared_handles, make_shared_snd] at hc hd
    by_cases h1 : h = x
    · by_cases k1 : k = x
      · rw [h1, k1]
      · simp [h1] at hc
        subst hc
        simp only [k1, if_false] at hd
        simp at hp
        subst hp
        have := hv k d _ hd hdp
        omega
    · simp only [h1, if_false] at hc
      by_cases k1 : k = x
      · simp [k1] at hd
        subst hd
        simp at hdp
        subst hdp
        have := hv h c _ hc hp
        omega
      · simp only [k1, if_false] at hd
        exact hu h k c d p hc hm hp hd hdp

theorem inv_clear (w : World T) (x : Nat) (m : Mode) (hi : Inv w) :
    Inv (w.setHandle x (some ⟨m, none⟩)) := by
  obtain ⟨hv, hu⟩ := hi
  constructor
  · intro k c p hc hp
    simp only [setHandle_handles, setHandle_heap] at hc ⊢
    by_cases k1 : k = x
    · simp [k1] at hc
      subst hc
      simp at hp
    simp only [k1, if_false] at hc
    exact hv k c p hc hp
  · intro h k c d p hc hm hp hd hdp
    simp only [setHandle_handles] at hc hd
    by_cases h1 : h = x
    · simp [h1] at hc
      subst hc
      simp at hp
    by_cases k1 : k = x
    · simp [k1] at hd
      subst hd
      simp at hdp
    simp only [h1, k1, if_false] at hc hd
    exact hu h k c d p hc hm hp hd hdp

theorem inv_remove (w : World T) (x : Nat) (hi : Inv w) : Inv (w.setHandle x none) := by
  obtain ⟨hv, hu⟩ := hi
  constructor
  · intro k c p hc hp
    simp only [setHandle_handles, setHandle_heap] at hc ⊢
    by_cases k1 : k = x
    · simp [k1] at hc
    simp only [k1, if_false] at hc
    exact hv k c p hc hp
  · intro h k c d p hc hm hp hd hdp
    simp only [setHandle_handles] at hc hd
    by_cases h1 : h = x
    · simp [h1] at hc
    by_cases k1 : k = x
    · simp [k1] at hd
    simp only [h1, k1, if_false] at hc hd
    exact hu h k c d p hc hm hp hd hdp

theorem inv_store (w : World T) (p : Nat) (v : T) (hi : Inv w) : Inv (w.store p v) := by
  obtain ⟨hv, hu⟩ := hi
  constructor
  · intro k c q hc hq
    simp only [store_handles, store_heap, List.length_set] at hc ⊢
    exact hv k c q hc hq
  · intro h k c d q hc hm hq hd hdq
    simp only [store_handles] at hc hd
    exact hu h k c d q hc hm hq hd hdq

theorem put_inv (w w1 : World T) (h : Nat) (r : Option Nat) (hi : Inv w)
    (he : put w h = .ok (w1, r)) : Inv w1 := by
  unfold put at he
  cases hc : w.handles h with
  | none => simp [hc] at he
  | some c =>
    cases hm : c.mode_ with
    | COW_PRIVATE =>
      simp [hc, hm] at he
      rw [← he.1]
      exact hi
    | COW_SHARED =>
      cases hq : c.ptr_ with
      | none => simp [hc, hm, hq] at he
      | some p =>
        cases hv : w.deref p with
        | none => simp [hc, hm, hq, hv] at he
        | some v =>
          simp only [hc, hm, hq, hv, if_true, Except.ok.injEq, Prod.mk.injEq] at he
          rw [← he.1]
          exact inv_fresh w h v hi

theorem fresh_inv (w w1 : World T) (h : Nat) (v : T) (hi : Inv w)
    (he : (make_shared w v).1.setHandle h (some ⟨.COW_PRIVATE, some (make_shared w v).2⟩) = w1) :
    Inv w1 := by
  rw [← he]
  exact inv_fresh w h v hi

theorem exec_inv (w w1 : World T) (op : Op T) (hi : Inv w) (he : exec w op = .ok w1) :
    Inv w1 := by
  cases op with
  | defaultCtor h =>
    simp only [exec, defaultCtor] at he
    cases hc : w.handles h with
    | some c => simp [hc] at he
    | none =>
      simp only [hc, Except.ok.injEq] at he
      rw [← he]
      exact inv_clear w h _ hi
  | copyCtor h orig =>
    simp only [exec, copyCtor] at he
    cases hc : w.handles h with
    | some c => simp [hc] at he
    | none =>
      cases ho : w.handles orig with
      | none => simp [hc, ho] at he
      | some o =>
        simp only [hc, ho, Except.ok.injEq] at he
        rw [← he]
        exact inv_share w h orig o ho hi
  | moveCtor h orig =>
    simp only [exec, moveCtor] at he
    cases hc : w.handles h with
    | some c => simp [hc] at he
    | none =>
      cases ho : w.handles orig with
      | none => simp [hc, ho] at he
      | some o =>
        simp only [hc, ho, Except.ok.injEq] at he
        rw [← he]
        refine inv_move w h orig o ho ?_ hi
        rintro rfl
        simp [hc] at ho
  | valueCtor h v =>
    simp only [exec, valueCtor] at he
    cases hc : (make_shared w v).1.handles h with
    | some c => simp [hc] at he
    | none =>
      simp only [hc, Except.ok.injEq] at he
      exact fresh_inv w w1 h v hi he
  | valueCtorMove h v =>
    simp only [exec, valueCtorMove] at he
    cases hc : (make_shared w v).1.handles h with
    | some c => simp [hc, Except.map] at he
    | none =>
      simp only [hc, Except.map, Except.ok.injEq] at he
      exact fresh_inv w w1 h v hi he
  | copyAssign t orig =>
    simp only [exec, copyAssign] at he
    cases hc : w.handles t with
    | none => simp [hc] at he
    | some c =>
      cases ho : w.handles orig with
      | none => simp [hc, ho] at he
      | some o =>
        by_cases hne : orig = t
        · simp [hc, ho, hne] at he
        · simp only [hc, ho, hne, if_false, Except.ok.injEq] at he
          rw [← he]
          exact inv_share w t orig o ho hi
  | moveAssign t orig =>
    simp only [exec, moveAssign] at he
    cases hc : w.handles t with
    | none => simp [hc] at he
    | some c =>
      cases ho : w.handles orig with
      | none => simp [hc, ho] at he
      | some o =>
        by_cases hne : orig = t
        · simp [hc, ho, hne] at he
        · simp only [hc, ho, hne, if_false, Except.ok.injEq] at he
          rw [← he]
          exact inv_move w t orig o ho (Ne.symm hne) hi
  | assign h v =>
    simp only [exec, assign] at he
    cases hc : (make_shared w v).1.handles h with
    | none => simp [hc] at he
    | some c =>
      simp only [hc, Except.ok.injEq] at he
      exact fresh_inv w w1 h v hi he
  | assignMove h v =>
    simp only [exec, assignMove] at he
    cases hc : (make_shared w v).1.handles h with
    | none => simp [hc, Except.map] at he
    | some c =>
      simp only [hc, Except.map, Except.ok.injEq] at he
      exact fresh_inv w w1 h v hi he
  | operatorBool h =>
    simp only [exec, operatorBool] at he
    cases hc : w.handles h with
    | none => simp [hc, Except.map] at he
    | some c =>
      simp only [hc, Except.map, Except.ok.injEq] at he
      rw [← he]
      exact hi
  | get h =>
    simp only [exec, get] at he
    cases hc : w.handles h with
    | none => simp [hc, Except.map] at he
    | some c =>
      simp only [hc, Except.map, Except.ok.injEq] at he
      rw [← he]
      exact hi
  | put h =>
    simp only [exec] at he
    cases hp : put w h with
    | error e => simp [hp, Except.map] at he
    | ok r =>
      simp only [hp, Except.map, Except.ok.injEq] at he
      rw [← he]
      exact put_inv w r.1 h r.2 hi hp
  | destroy h =>
    simp only [exec, destroy] at he
    cases hc : w.handles h with
    | none => simp [hc] at he
    | some c =>
      simp only [hc, Except.ok.injEq] at he
      rw [← he]
      exact inv_remove w h hi
  | store p v =>
    simp only [exec, Except.ok.injEq] at he
    rw [← he]
    exact inv_store w p v hi

theorem run_inv (ops : List (Op T)) (w w1 : World T) (hi : Inv w) (he : run w ops = .ok w1) :
    Inv w1 := by
  induction ops generalizing w with
  | nil =>
    simp only [run, Except.ok.injEq] at he
    rw [← he]
    exact hi
  | cons op ops ih =>
    simp only [run] at he
    cases h1 : exec w op with
    | error e => simp [h1] at he
    | ok w2 =>
      simp only [h1] at he
      exact ih w2 (exec_inv w w2 op hi h1) he

theorem reachable_inv (w : World T) (hr : Reachable w) : Inv w := by
  obtain ⟨ops, hops⟩ := hr
  exact run_inv ops _ w inv_empty hops

theorem put_result_handle (w w1 : World T) (h q : Nat) (he : put w h = .ok (w1, some q)) :
    w1.handles h = some ⟨.COW_PRIVATE, some q⟩ := by
  unfold put at he
  cases hc : w.handles h with
  | none => simp [hc] at he
  | some c =>
    cases hm : c.mode_ with
    | COW_PRIVATE =>
      simp [hc, hm] at he
      rw [← he.1, hc, ← hm, ← he.2]
    | COW_SHARED =>
      cases hq : c.ptr_ with
      | none => simp [hc, hm, hq] at he
      | some p =>
        cases hv : w.deref p with
        | none => simp [hc, hm, hq, hv] at he
        | some v =>
          simp only [hc, hm, hq, hv, if_true, Except.ok.injEq, Prod.mk.injEq] at he
          rw [← he.1]
          simp only [setHandle_handles, if_true]
          rw [he.2]

/-- C3. Exclusivity invariant: in every world reached from the empty one by
public operations (value construction and `assign` receiving a pointer fresh
from `make_shared`) and writes through pointers, a live Exclusive handle that
holds a value is the only live handle referencing that instance; two distinct
live handles referencing one instance are both Shared; and the instance that
`put()` returns is referenced by no other live handle when `put()` returns. -/
theorem exclusivity_invariant (w : World T) (hr : Reachable w) :
    (∀ h k c d p, w.handles h = some c → c.mode_ = .COW_PRIVATE → c.ptr_ = some p →
      w.handles k = some d → d.ptr_ = some p → k = h) ∧
    (∀ h k c d p, h ≠ k → w.handles h = some c → w.handles k = some d →
      c.ptr_ = some p → d.ptr_ = some p → c.mode_ = .COW_SHARED ∧ d.mode_ = .COW_SHARED) ∧
    (∀ h w1 q, put w h = .ok (w1, some q) →
      ∀ k d, w1.handles k = some d → d.ptr_ = some q → k = h) := by
  have hi := reachable_inv w hr
  refine ⟨hi.2, ?_, ?_⟩
  · intro h k c d p hne hc hd hp hdp
    constructor
    · cases hm : c.mode_ with
      | COW_SHARED => rfl
      | COW_PRIVATE => exact absurd (hi.2 h k c d p hc hm hp hd hdp).symm hne
    · cases hm : d.mode_ with
      | COW_SHARED => rfl
      | COW_PRIVATE => exact absurd (hi.2 k h d c p hd hm hdp hc hp) hne
  · intro h w1 q hp k d hd hdq
    have hi1 := put_inv w w1 h (some q) hi hp
    exact hi1.2 h k _ d q (put_result_handle w w1 h q hp) rfl rfl hd hdq

/-! ## No unnecessary cloning -/

theorem sharedAt_put (w : World T) (h p : Nat) (v : T) (hs : SharedAt w h p v) :
    put w h = .ok ((make_shared w v).1.setHandle h (some ⟨.COW_PRIVATE, some w.heap.length⟩),
      some w.heap.length) :=
  put_shared w h p _ v hs.1 rfl rfl hs.2

theorem sharedAt_readValue (w : World T) (k p : Nat) (v : T) (hs : SharedAt w k p v) :
    readValue w k = some v := by
  rw [readValue_eq w k _ p hs.1 rfl]
  exact hs.2

theorem sharedAt_ptrOf_lt (w : World T) (k p : Nat) (v : T) (hs : SharedAt w k p v) :
    ptrOf w k = some p ∧ p < w.heap.length := by
  refine ⟨?_, deref_lt hs.2⟩
  simp [ptrOf, hs.1]

theorem sharedAt_after_put (w : World T) (h k p : Nat) (v u x : T) (hs : SharedAt w k p v)
    (hkh : k ≠ h) :
    SharedAt (((make_shared w u).1.setHandle h
      (some ⟨.COW_PRIVATE, some w.heap.length⟩)).store w.heap.length x) k p v := by
  have hlt := deref_lt hs.2
  constructor
  · simp [hkh, hs.1]
  · rw [deref_store_ne _ _ _ _ (by omega)]
    have := hs.2
    simp only [World.deref, setHandle_heap, make_shared_heap] at this ⊢
    simp [List.getElem?_append_left hlt, this]

theorem sharedAt_after_clone (w : World T) (h k p : Nat) (v u : T) (hs : SharedAt w k p v)
    (hkh : k ≠ h) :
    SharedAt ((make_shared w u).1.setHandle h (some ⟨.COW_PRIVATE, some w.heap.length⟩))
      k p v := by
  have hlt := deref_lt hs.2
  constructor
  · simp [hkh, hs.1]
  · have := hs.2
    simp only [World.deref, setHandle_heap, make_shared_heap] at this ⊢
    simp [List.getElem?_append_left hlt, this]

theorem ptrOf_after_put (w : World T) (h : Nat) (u x : T) :
    ptrOf (((make_shared w u).1.setHandle h
      (some ⟨.COW_PRIVATE, some w.heap.length⟩)).store w.heap.length x) h
      = some w.heap.length := by
  simp [ptrOf]

theorem length_after_put (w : World T) (h : Nat) (u x : T) :
    (((make_shared w u).1.setHandle h
      (some ⟨.COW_PRIVATE, some w.heap.length⟩)).store w.heap.length x).heap.length
      = w.heap.length + 1 := by
  simp

theorem deref_length (w : World T) : w.deref w.heap.length = none := by
  simp [World.deref]

theorem ptrOf_put_other (w : World T) (h k : Nat) (u : T) (hkh : k ≠ h) :
    ptrOf ((make_shared w u).1.setHandle h (some ⟨.COW_PRIVATE, some w.heap.length⟩)) k
      = ptrOf w k := by
  simp [ptrOf, hkh]

theorem ptrOf_put_self (w : World T) (h : Nat) (u : T) :
    ptrOf ((make_shared w u).1.setHandle h (some ⟨.COW_PRIVATE, some w.heap.length⟩)) h
      = some w.heap.length := by
  simp [ptrOf]

/-- Three distinct handles sharing one instance: a write through `h` leaves
the value read by `k`, and `k`'s own next `put()` returns an instance that is
new and is referenced by neither `h` nor `j`, while `j` still reads the value
and itself clones on its next `put()`. -/
theorem shared_triple (w : World T) (h k j p : Nat) (v x : T)
    (hh : SharedAt w h p v) (hk : SharedAt w k p v) (hj : SharedAt w j p v)
    (hkh : k ≠ h) (hjh : j ≠ h) (hjk : j ≠ k) :
    ∃ w3 q, put w h = .ok (w3, some q) ∧
      readValue (w3.store q x) k = some v ∧
      ∃ w4 r, put (w3.store q x) k = .ok (w4, some r) ∧
        (w3.store q x).deref r = none ∧
        ptrOf w4 h ≠ some r ∧ ptrOf w4 j ≠ some r ∧
        readValue w4 j = some v ∧
        ∃ w5 r2, put w4 j = .ok (w5, some r2) ∧ w4.deref r2 = none ∧
          ptrOf w5 h ≠ some r2 ∧ ptrOf w5 k ≠ some r2 := by
  have hk1 := sharedAt_after_put w h k p v v x hk hkh
  have hj1 := sharedAt_after_put w h j p v v x hj hjh
  refine ⟨_, _, sharedAt_put w h p v hh, sharedAt_readValue _ k p v hk1, _, _,
    sharedAt_put _ k p v hk1, deref_length _, ?_, ?_, ?_, ?_⟩
  · rw [ptrOf_put_other _ k h v (Ne.symm hkh), ptrOf_after_put, length_after_put]
    simp
  · rw [ptrOf_put_other _ k j v hjk, (sharedAt_ptrOf_lt _ j p v hj1).1, length_after_put]
    have := deref_lt hj.2
    simp
    omega
  · exact sharedAt_readValue _ j p v (sharedAt_after_clone _ k j p v v hj1 hjk)
  · refine ⟨_, _, sharedAt_put _ j p v (sharedAt_after_clone _ k j p v v hj1 hjk),
      deref_length _, ?_, ?_⟩
    · rw [ptrOf_put_other _ j h v (Ne.symm hjh), ptrOf_put_other _ k h v (Ne.symm hkh),
        ptrOf_after_put]
      simp
    · rw [ptrOf_put_other _ j k v (Ne.symm hjk), ptrOf_put_self]
      simp

/-- C8. Chained sharing: `a` is value-constructed holding `v`, `b` is
copy-constructed from `a` and `c` from `b`.  For every arrangement `h, k, j` of
the three handles: after `x` is written through `h.put()`, `k` and `j` still
read `v`; `k`'s next `put()` returns an instance that did not exist and that
neither `h` nor `j` references, after which `j` still reads `v` and `j`'s own
next `put()` again returns an instance that did not exist and that neither `h`
nor `k` references. -/
theorem chained_sharing (w : World T) (a b c p : Nat) (v x : T)
    (ha : w.handles a = some ⟨.COW_PRIVATE, some p⟩) (hv : w.deref p = some v)
    (hb : w.handles b = none) (hc : w.handles c = none) (hbc : b ≠ c) :
    ∃ w1 w2, copyCtor w b a = .ok w1 ∧ copyCtor w1 c b = .ok w2 ∧
      ∀ h k j, h ∈ [a, b, c] → k ∈ [a, b, c] → j ∈ [a, b, c] → k ≠ h → j ≠ h → j ≠ k →
        ∃ w3 q, put w2 h = .ok (w3, some q) ∧
          readValue (w3.store q x) k = some v ∧
          readValue (w3.store q x) j = some v ∧
          ∃ w4 r, put (w3.store q x) k = .ok (w4, some r) ∧
            (w3.store q x).deref r = none ∧
            ptrOf w4 h ≠ some r ∧ ptrOf w4 j ≠ some r ∧
            readValue w4 j = some v ∧
            ∃ w5 r2, put w4 j = .ok (w5, some r2) ∧ w4.deref r2 = none ∧
              ptrOf w5 h ≠ some r2 ∧ ptrOf w5 k ≠ some r2 := by
  have hab : a ≠ b := by
    rintro rfl
    simp [hb] at ha
  have hac : a ≠ c := by
    rintro rfl
    simp [hc] at ha
  refine ⟨_, _, copyCtor_ok w b a _ hb ha,
    copyCtor_ok _ c b ⟨.COW_SHARED, some p⟩ (by simp [hac.symm, hbc.symm, hc])
      (by simp [hab.symm]), ?_⟩
  have hall : ∀ m, m ∈ [a, b, c] →
      SharedAt (((w.setHandle b (some ⟨.COW_SHARED, some p⟩)).setHandle a
        (some ⟨.COW_SHARED, some p⟩)).setHandle c (some ⟨.COW_SHARED, some p⟩) |>.setHandle b
        (some ⟨.COW_SHARED, some p⟩)) m p v := by
    intro m hm
    simp only [List.mem_cons, List.mem_singleton, List.not_mem_nil, or_false] at hm
    refine ⟨?_, hv⟩
    rcases hm with rfl | rfl | rfl
    · simp [hab, hac]
    · simp
    · simp [hbc.symm]
  intro h k j hh hk hj hkh hjh hjk
  obtain ⟨w3, q, h1, h2, w4, r, h3, h4, h5, h6, h7, h8⟩ :=
    shared_triple _ h k j p v x (hall h hh) (hall k hk) (hall j hj) hkh hjh hjk
  obtain ⟨w3b, qb, h1b, h2b, _⟩ :=
    shared_triple _ h j k p v x (hall h hh) (hall j hj) (hall k hk) hjh hkh (Ne.symm hjk)
  rw [h1] at h1b
  simp only [Except.ok.injEq, Prod.mk.injEq, Option.some.injEq] at h1b
  rw [← h1b.1, ← h1b.2] at h2b
  exact ⟨w3, q, h1, h2, h2b, w4, r, h3, h4, h5, h6, h7, h8⟩

/-! ## Totality and the assertion of the assignment operators -/

/-- C14, as stated, fails: copy-assignment and move-assignment of a live handle
to itself do not complete, the assertion `&orig != this` fails. -/
theorem self_assignment_fails :
    copyAssign demoWorld 0 0 = .error .assertFailed ∧
    moveAssign demoWorld 0 0 = .error .assertFailed := by
  constructor <;> rfl

/-- C14, amended. Copy-construction and move-construction of a new object from
a live source, `assign` (both overloads), `get()` and `operator bool` on a
live handle complete in every state; copy-assignment and move-assignment
complete when source and destination are distinct objects, and fail the
assertion `&orig != this` when they are the same object. -/
theorem totality_except_write (w : World T) (t s k : Nat) (c o : CowPtr) (ptr : Option Nat)
    (ht : w.handles t = some c) (hs : w.handles s = some o) (hk : w.handles k = none) :
    (∃ w1, copyCtor w k s = .ok w1) ∧
    (∃ w1, moveCtor w k s = .ok w1) ∧
    (s ≠ t → ∃ w1, copyAssign w t s = .ok w1) ∧
    (s ≠ t → ∃ w1, moveAssign w t s = .ok w1) ∧
    (∃ w1, assign w t ptr = .ok w1) ∧
    (∃ r, assignMove w t ptr = .ok r) ∧
    (∃ r, get w t = .ok r) ∧
    (∃ r, operatorBool w t = .ok r) ∧
    copyAssign w t t = .error .assertFailed ∧
    moveAssign w t t = .error .assertFailed := by
  refine ⟨⟨_, copyCtor_ok w k s o hk hs⟩, ⟨_, moveCtor_ok w k s o hk hs⟩,
    fun hne => ⟨_, copyAssign_ok w t s c o ht hs hne⟩,
    fun hne => ⟨_, moveAssign_ok w t s c o ht hs hne⟩,
    ⟨_, assign_ok w t c ptr ht⟩, ?_, ?_, ⟨_, operatorBool_ok w t c ht⟩, ?_, ?_⟩
  · simp [assignMove, ht]
  · simp [get, ht]
  · simp [copyAssign, ht]
  · simp [moveAssign, ht]

/-! ## The acquisition loop -/

theorem doWhile_false {σ : Type} (body : σ → σ) (fuel : Nat) (s : σ) :
    doWhile (fun _ => false) body (fuel + 1) s = body s := by
  simp [doWhile]

theorem acquire_eq (tryLock : Nat → Bool) (fuel : Nat) :
    acquire tryLock (fuel + 1) = acquireBody tryLock ⟨false, false, 0⟩ :=
  doWhile_false _ fuel _

/-- C15 on the code. The loop `do ... while (0)` runs its body once, a
`continue` included: both mutexes are held afterwards exactly when the first
two `try_lock` calls succeed.  When the first `try_lock` fails, or the first
succeeds and the second fails, both assignment operators update `mode_` and
`ptr_` with no mutex held and both `unlock()` calls release a mutex the caller
does not hold. -/
theorem assign_locks_not_acquired (tryLock : Nat → Bool) (fuel : Nat) :
    (acquire tryLock (fuel + 1)).orig = (tryLock 0 && tryLock 1) ∧
    (acquire tryLock (fuel + 1)).self = (tryLock 0 && tryLock 1) ∧
    copyAssignLocks (fun _ => false) (fuel + 1) = ⟨false, false, false, false⟩ ∧
    moveAssignLocks (fun _ => false) (fuel + 1) = ⟨false, false, false, false⟩ ∧
    copyAssignLocks (fun i => decide (i = 0)) (fuel + 1) = ⟨false, false, false, false⟩ ∧
    moveAssignLocks (fun i => decide (i = 0)) (fuel + 1) = ⟨false, false, false, false⟩ := by
  refine ⟨?_, ?_, ?_, ?_, ?_, ?_⟩
  · rw [acquire_eq]
    cases h0 : tryLock 0 <;> cases h1 : tryLock 1 <;> simp [acquireBody, h0, h1]
  · rw [acquire_eq]
    cases h0 : tryLock 0 <;> cases h1 : tryLock 1 <;> simp [acquireBody, h0, h1]
  · simp [copyAssignLocks, acquire_eq, acquireBody]
  · simp [moveAssignLocks, acquire_eq, acquireBody]
  · simp [copyAssignLocks, acquire_eq, acquireBody]
  · simp [moveAssignLocks, acquire_eq, acquireBody]

/-! ## The container of handles -/

theorem holds_of_sharedAt (w : World T) (j p : Nat) (v : T) (hs : SharedAt w j p v) :
    Holds w j p v :=
  ⟨_, hs.1, rfl, hs.2⟩

theorem copyCtor_sharedAt_keep (w w1 : World T) (a b j p : Nat) (v : T)
    (he : copyCtor w b a = .ok w1) (hs : SharedAt w j p v) (hbj : b ≠ j) :
    SharedAt w1 j p v := by
  unfold copyCtor at he
  cases hb : w.handles b with
  | some c => simp [hb] at he
  | none =>
    cases ha : w.handles a with
    | none => simp [hb, ha] at he
    | some o =>
      simp only [hb, ha, Except.ok.injEq] at he
      rw [← he]
      refine ⟨?_, hs.2⟩
      by_cases hja : j = a
      · subst hja
        have := hs.1
        rw [ha] at this
        simp only [Option.some.injEq] at this
        simp [this]
      · simp [hja, Ne.symm hbj, hs.1]

theorem copyMap_sharedAt_keep (es : List (Int × Nat × Nat)) (w w1 : World T) (j p : Nat)
    (v : T) (he : copyMap w es = .ok w1) (hs : SharedAt w j p v)
    (hj : ∀ e ∈ es, e.2.2 ≠ j) : SharedAt w1 j p v := by
  induction es generalizing w with
  | nil =>
    simp only [copyMap, Except.ok.injEq] at he
    rw [← he]
    exact hs
  | cons e tl ih =>
    obtain ⟨k, a, b⟩ := e
    simp only [copyMap] at he
    cases h1 : copyCtor w b a with
    | error x => simp [h1] at he
    | ok w2 =>
      simp only [h1] at he
      have hbj : b ≠ j := hj (k, a, b) (List.mem_cons_self _ _)
      exact ih w2 he (copyCtor_sharedAt_keep w w2 a b j p v h1 hs hbj)
        (fun e he2 => hj e (List.mem_cons_of_mem _ he2))

theorem copyCtor_holds (w : World T) (a b p : Nat) (v : T) (ha : Holds w a p v)
    (hb : w.handles b = none) :
    ∃ w1, copyCtor w b a = .ok w1 ∧ SharedAt w1 a p v ∧ SharedAt w1 b p v ∧
      (∀ j q u, Holds w j q u → Holds w1 j q u) ∧
      (∀ j, j ≠ b → w.handles j = none → w1.handles j = none) := by
  obtain ⟨c, hc, hp, hv⟩ := ha
  have hab : a ≠ b := by
    rintro rfl
    simp [hb] at hc
  refine ⟨_, copyCtor_ok w b a c hb hc, ?_, ?_, ?_, ?_⟩
  · exact ⟨by simp [hp], hv⟩
  · exact ⟨by simp [hab.symm, hp], hv⟩
  · rintro j q u ⟨d, hd, hq, hu⟩
    have hjb : j ≠ b := by
      rintro rfl
      simp [hb] at hd
    by_cases hja : j = a
    · subst hja
      rw [hc] at hd
      simp only [Option.some.injEq] at hd
      subst hd
      exact ⟨⟨.COW_SHARED, c.ptr_⟩, by simp, hq, hu⟩
    · exact ⟨d, by simp [hja, hjb, hd], hq, hu⟩
  · intro j hjb hj
    have hja : j ≠ a := by
      rintro rfl
      simp [hj] at hc
    simp [hja, hjb, hj]

theorem copyMap_spec (es : List (Int × Nat × Nat)) (w : World T)
    (hnd : (es.map (fun e => e.2.2)).Nodup)
    (hlive : ∀ e ∈ es, ∃ p v, Holds w e.2.1 p v)
    (hnew : ∀ e ∈ es, w.handles e.2.2 = none) :
    ∃ w1, copyMap w es = .ok w1 ∧
      ∀ e ∈ es, ∀ p v, Holds w e.2.1 p v → SharedAt w1 e.2.1 p v ∧ SharedAt w1 e.2.2 p v := by
  induction es generalizing w with
  | nil => exact ⟨w, rfl, by simp⟩
  | cons e tl ih =>
    obtain ⟨k, a, b⟩ := e
    simp only [List.map_cons, List.nodup_cons, List.mem_map, not_exists, not_and] at hnd
    obtain ⟨p0, v0, h0⟩ := hlive (k, a, b) (List.mem_cons_self _ _)
    have hb := hnew (k, a, b) (List.mem_cons_self _ _)
    obtain ⟨w2, h2, hsa, hsb, hkeep, hnone⟩ := copyCtor_holds w a b p0 v0 h0 hb
    have hlive2 : ∀ e ∈ tl, ∃ p v, Holds w2 e.2.1 p v := by
      intro e he
      obtain ⟨p, v, hh⟩ := hlive e (List.mem_cons_of_mem _ he)
      exact ⟨p, v, hkeep _ p v hh⟩
    have hnew2 : ∀ e ∈ tl, w2.handles e.2.2 = none := by
      intro e he
      exact hnone _ (fun h => hnd.1 e he h) (hnew e (List.mem_cons_of_mem _ he))
    obtain ⟨w1, h1, hall⟩ := ih w2 hnd.2 hlive2 hnew2
    refine ⟨w1, by simp [copyMap, h2, h1], ?_⟩
    intro e he p v hh
    rcases List.mem_cons.mp he with rfl | he
    · obtain ⟨c, hc, hp, hv⟩ := hh
      obtain ⟨c0, hc0, hp0, hv0⟩ := h0
      simp only at hc hc0
      rw [hc0] at hc
      simp only [Option.some.injEq] at hc
      subst hc
      rw [hp0] at hp
      simp only [Option.some.injEq] at hp
      subst hp
      rw [hv0] at hv
      simp only [Option.some.injEq] at hv
      subst hv
      refine ⟨copyMap_sharedAt_keep tl w2 w1 a p0 v0 h1 hsa ?_,
        copyMap_sharedAt_keep tl w2 w1 b p0 v0 h1 hsb ?_⟩
      · intro e he2 heq
        have := hnew e (List.mem_cons_of_mem _ he2)
        rw [heq, hc0] at this
        simp at this
      · intro e he2 heq
        exact hnd.1 e he2 heq
    · exact hall e he p v (hkeep _ p v hh)

theorem deref_after_put_old (w : World T) (h p : Nat) (u x : T) (hp : p < w.heap.length) :
    (((make_shared w u).1.setHandle h
      (some ⟨.COW_PRIVATE, some w.heap.length⟩)).store w.heap.length x).deref p
      = w.deref p := by
  rw [deref_store_ne _ _ _ _ (by omega)]
  simp only [World.deref, setHandle_heap, make_shared_heap]
  simp [List.getElem?_append_left hp]

theorem deref_after_put_new (w : World T) (h : Nat) (u x : T) :
    (((make_shared w u).1.setHandle h
      (some ⟨.COW_PRIVATE, some w.heap.length⟩)).store w.heap.length x).deref w.heap.length
      = some x := by
  simp [World.deref]

theorem writeEven_spec (f : Int → T) (es : List (Int × Nat × Nat)) (w : World T)
    (hnd : (es.map (fun e => e.2.2)).Nodup)
    (hsh : ∀ e ∈ es, ∃ p v, SharedAt w e.2.2 p v) :
    ∃ w2, writeEven f w es = .ok w2 ∧
      w.heap.length ≤ w2.heap.length ∧
      (∀ p, p < w.heap.length → w2.deref p = w.deref p) ∧
      (∀ j, (∀ e ∈ es, e.1 % 2 = 0 → e.2.2 ≠ j) → w2.handles j = w.handles j) ∧
      (∀ e ∈ es, e.1 % 2 = 0 → readValue w2 e.2.2 = some (f e.1)) := by
  induction es generalizing w with
  | nil => exact ⟨w, rfl, le_refl _, fun _ _ => rfl, fun _ _ => rfl, by simp⟩
  | cons e tl ih =>
    obtain ⟨k, a, b⟩ := e
    simp only [List.map_cons, List.nodup_cons, List.mem_map, not_exists, not_and] at hnd
    by_cases hk : k % 2 = 0
    · obtain ⟨p0, v0, h0⟩ := hsh (k, a, b) (List.mem_cons_self _ _)
      have hput := sharedAt_put w b p0 v0 h0
      have hsh2 : ∀ e ∈ tl, ∃ p v, SharedAt (((make_shared w v0).1.setHandle b
          (some ⟨.COW_PRIVATE, some w.heap.length⟩)).store w.heap.length (f k)) e.2.2 p v := by
        intro e he
        obtain ⟨p, v, hh⟩ := hsh e (List.mem_cons_of_mem _ he)
        exact ⟨p, v, sharedAt_after_put w b e.2.2 p v v0 (f k) hh (fun h => hnd.1 e he h)⟩
      obtain ⟨w2, h2, hlen, hA, hB, hC⟩ := ih _ hnd.2 hsh2
      rw [length_after_put] at hlen
      refine ⟨w2, by simp [writeEven, hk, hput, h2], by omega, ?_, ?_, ?_⟩
      · intro p hp
        rw [hA p (by rw [length_after_put]; omega), deref_after_put_old w b p v0 (f k) hp]
      · intro j hj
        have hbj : b ≠ j := hj (k, a, b) (List.mem_cons_self _ _) hk
        rw [hB j (fun e he => hj e (List.mem_cons_of_mem _ he))]
        simp [Ne.symm hbj]
      · intro e he hek
        rcases List.mem_cons.mp he with rfl | he
        · have hb2 : w2.handles b = some ⟨.COW_PRIVATE, some w.heap.length⟩ := by
            rw [hB b (fun e he _ h => hnd.1 e he h)]
            simp
          rw [readValue_eq w2 b _ w.heap.length hb2 rfl,
            hA _ (by rw [length_after_put]; omega), deref_after_put_new]
        · exact hC e he hek
    · obtain ⟨w2, h2, hlen, hA, hB, hC⟩ :=
        ih w hnd.2 (fun e he => hsh e (List.mem_cons_of_mem _ he))
      refine ⟨w2, by simp [writeEven, hk, h2], hlen, hA, ?_, ?_⟩
      · intro j hj
        exact hB j (fun e he => hj e (List.mem_cons_of_mem _ he))
      · intro e he hek
        rcases List.mem_cons.mp he with rfl | he
        · exact absurd hek hk
        · exact hC e he hek

theorem copyMap_heap (es : List (Int × Nat × Nat)) (w w1 : World T)
    (he : copyMap w es = .ok w1) : w1.heap = w.heap := by
  induction es generalizing w with
  | nil =>
    simp only [copyMap, Except.ok.injEq] at he
    rw [← he]
  | cons e tl ih =>
    obtain ⟨k, a, b⟩ := e
    simp only [copyMap] at he
    cases h1 : copyCtor w b a with
    | error x => simp [h1] at he
    | ok w2 =>
      simp only [h1] at he
      rw [ih w2 he]
      unfold copyCtor at h1
      cases hb : w.handles b with
      | some c => simp [hb] at h1
      | none =>
        cases ha : w.handles a with
        | none => simp [hb, ha] at h1
        | some o =>
          simp only [hb, ha, Except.ok.injEq] at h1
          rw [← h1]
          rfl

/-- C9. Container of handles: `m0` maps keys to distinct live handles that
each hold a value, `m1` is made by copy-constructing a new handle for every
key, then `f k` is written through `put()` on the `m1` handle of every even
key `k`.  Both steps succeed; afterwards, for every entry, `m0[k]` reads what
it read before the copy; for even `k`, `m1[k]` reads `f k`; for odd `k`,
`m1[k]` references the same instance as `m0[k]` and reads the same value. -/
theorem container_of_handles (f : Int → T) (es : List (Int × Nat × Nat)) (w : World T)
    (hnd : (es.map (fun e => e.2.2)).Nodup)
    (hlive : ∀ e ∈ es, ∃ p v, Holds w e.2.1 p v)
    (hnew : ∀ e ∈ es, w.handles e.2.2 = none) :
    ∃ w1 w2, copyMap w es = .ok w1 ∧ writeEven f w1 es = .ok w2 ∧
      ∀ e ∈ es,
        readValue w2 e.2.1 = readValue w e.2.1 ∧
        (e.1 % 2 = 0 → readValue w2 e.2.2 = some (f e.1)) ∧
        (e.1 % 2 ≠ 0 → ptrOf w2 e.2.2 = ptrOf w2 e.2.1 ∧
          readValue w2 e.2.2 = readValue w2 e.2.1) := by
  obtain ⟨w1, h1, hall⟩ := copyMap_spec es w hnd hlive hnew
  have hsh : ∀ e ∈ es, ∃ p v, SharedAt w1 e.2.2 p v := by
    intro e he
    obtain ⟨p, v, hh⟩ := hlive e he
    exact ⟨p, v, (hall e he p v hh).2⟩
  obtain ⟨w2, h2, _, hA, hB, hC⟩ := writeEven_spec f es w1 hnd hsh
  refine ⟨w1, w2, h1, h2, ?_⟩
  intro e he
  obtain ⟨p, v, hh⟩ := hlive e he
  obtain ⟨hsa, hsb⟩ := hall e he p v hh
  have hplt := deref_lt hsa.2
  have ha2 : w2.handles e.2.1 = some ⟨.COW_SHARED, some p⟩ := by
    rw [hB e.2.1 ?_, hsa.1]
    intro e2 he2 _ heq
    obtain ⟨c, hc, _, _⟩ := hh
    rw [← heq, hnew e2 he2] at hc
    simp at hc
  have hra : readValue w2 e.2.1 = some v := by
    rw [readValue_eq w2 e.2.1 _ p ha2 rfl, hA p hplt]
    exact hsa.2
  have hrw : readValue w e.2.1 = some v := by
    obtain ⟨c, hc, hp, hv⟩ := hh
    rw [readValue_eq w e.2.1 c p hc hp]
    exact hv
  refine ⟨by rw [hra, hrw], hC e he, ?_⟩
  intro hodd
  have hb2 : w2.handles e.2.2 = some ⟨.COW_SHARED, some p⟩ := by
    rw [hB e.2.2 ?_, hsb.1]
    intro e2 he2 hev heq
    have := List.inj_on_of_nodup_map hnd he2 he heq
    rw [this] at hev
    exact hodd hev
  constructor
  · simp [ptrOf, ha2, hb2]
  · rw [hra, readValue_eq w2 e.2.2 _ p hb2 rfl, hA p hplt]
    exact hsa.2

/-! ## Path copying in the linked list -/

namespace ListTest

theorem walk_of_chain (w : LWorld) (l : List (Nat × String)) (p : Option Nat) (fuel : Nat)
    (hc : Chain w p l) (hf : l.length < fuel) : walk w fuel p = some l := by
  induction l generalizing p fuel with
  | nil =>
    simp only [Chain] at hc
    subst hc
    cases fuel with
    | zero => simp at hf
    | succ f => rfl
  | cons e r ih =>
    obtain ⟨hp, nd, hnd, hs, hr⟩ := hc
    subst hp
    cases fuel with
    | zero => simp at hf
    | succ f =>
      simp only [List.length_cons, Nat.add_lt_add_iff_right] at hf
      simp only [walk, hnd, ih nd.next.ptr_ f hr hf, hs]

theorem chain_of_walk (w : LWorld) (fuel : Nat) (p : Option Nat) (l : List (Nat × String))
    (hw : walk w fuel p = some l) : Chain w p l ∧ l.length < fuel := by
  induction fuel generalizing p l with
  | zero => simp [walk] at hw
  | succ f ih =>
    cases p with
    | none =>
      simp only [walk, Option.some.injEq] at hw
      subst hw
      exact ⟨rfl, by simp⟩
    | some a =>
      simp only [walk] at hw
      cases hnd : w.heap[a]? with
      | none => simp [hnd] at hw
      | some nd =>
        cases hr : walk w f nd.next.ptr_ with
        | none => simp [hnd, hr] at hw
        | some r =>
          simp only [hnd, hr, Option.some.injEq] at hw
          subst hw
          obtain ⟨h1, h2⟩ := ih nd.next.ptr_ r hr
          exact ⟨⟨rfl, nd, hnd, rfl, h1⟩, by simp [h2]⟩

theorem chain_valid (w : LWorld) (l : List (Nat × String)) (p : Option Nat)
    (hc : Chain w p l) : ∀ e ∈ l, e.1 < w.heap.length := by
  induction l generalizing p with
  | nil => simp
  | cons e r ih =>
    obtain ⟨_, nd, hnd, _, hr⟩ := hc
    intro e2 he2
    rcases List.mem_cons.mp he2 with rfl | he2
    · exact (List.getElem?_eq_some_iff.mp hnd).1
    · exact ih _ hr e2 he2

theorem chain_frame (w w1 : LWorld) (l : List (Nat × String)) (p : Option Nat)
    (hc : Chain w p l)
    (hf : ∀ e ∈ l, ∀ nd, w.heap[e.1]? = some nd →
      ∃ nd1, w1.heap[e.1]? = some nd1 ∧ nd1.s = nd.s ∧ nd1.next.ptr_ = nd.next.ptr_) :
    Chain w1 p l := by
  induction l generalizing p with
  | nil => exact hc
  | cons e r ih =>
    obtain ⟨hp, nd, hnd, hs, hr⟩ := hc
    obtain ⟨nd1, h1, h2, h3⟩ := hf e (List.mem_cons_self _ _) nd hnd
    refine ⟨hp, nd1, h1, by rw [h2, hs], ?_⟩
    rw [h3]
    exact ih _ hr (fun e2 he2 => hf e2 (List.mem_cons_of_mem _ he2))

theorem put_shared_step (w : LWorld) (loc : Loc) (a0 : Nat) (nd0 : Node)
    (hh : w.handle loc = some ⟨.COW_SHARED, some a0⟩) (hnd : w.heap[a0]? = some nd0)
    (hne : loc ≠ .next a0) :
    ∃ w1, put w loc = .ok (w1, some w.heap.length) ∧
      w1.heap.length = w.heap.length + 1 ∧
      w1.heap[w.heap.length]? = some ⟨⟨.COW_SHARED, nd0.next.ptr_⟩, nd0.s⟩ ∧
      (∀ a nd, w.heap[a]? = some nd → ∃ nd1, w1.heap[a]? = some nd1 ∧ nd1.s = nd.s ∧
        (loc ≠ .next a → nd1.next.ptr_ = nd.next.ptr_)) ∧
      (∃ c, w1.handle loc = some c ∧ c.ptr_ = some w.heap.length) ∧
      (∀ y, loc ≠ .var y → w1.vars y = w.vars y) := by
  have ha0 : a0 < w.heap.length := (List.getElem?_eq_some_iff.mp hnd).1
  have hold : ∀ (a : Nat) (nd : Node), w.heap[a]? = some nd →
      ∃ nd1 : Node, (w.heap.set a0 (⟨⟨.COW_SHARED, nd0.next.ptr_⟩, nd0.s⟩ : Node) ++
          [(⟨⟨.COW_SHARED, nd0.next.ptr_⟩, nd0.s⟩ : Node)])[a]? = some nd1 ∧
        nd1.s = nd.s ∧ nd1.next.ptr_ = nd.next.ptr_ := by
    intro a nd ha
    have hlt : a < w.heap.length := (List.getElem?_eq_some_iff.mp ha).1
    rw [List.getElem?_append_left (by simpa using hlt)]
    by_cases ha0a : a0 = a
    · subst ha0a
      rw [hnd] at ha
      simp only [Option.some.injEq] at ha
      subst ha
      exact ⟨⟨⟨.COW_SHARED, nd0.next.ptr_⟩, nd0.s⟩, by simp [ha0], rfl, rfl⟩
    · exact ⟨nd, by simp [ha0a, ha], rfl, rfl⟩
  cases loc with
  | var x =>
    refine ⟨⟨w.heap.set a0 ⟨⟨.COW_SHARED, nd0.next.ptr_⟩, nd0.s⟩ ++
        [⟨⟨.COW_SHARED, nd0.next.ptr_⟩, nd0.s⟩],
      fun k => if k = x then some ⟨.COW_PRIVATE, some w.heap.length⟩ else w.vars k⟩,
      ?_, ?_, ?_, ?_, ?_, ?_⟩
    · simp [put, hh, make_shared_copy, hnd, LWorld.setHandle]
    · simp
    · simp
    · intro a nd ha
      obtain ⟨nd1, h1, h2, h3⟩ := hold a nd ha
      exact ⟨nd1, h1, h2, fun _ => h3⟩
    · exact ⟨⟨.COW_PRIVATE, some w.heap.length⟩, by simp [LWorld.handle], rfl⟩
    · intro y hy
      have : y ≠ x := fun h => hy (by rw [h])
      simp [this]
  | next b =>
    have hb0 : b ≠ a0 := fun h => hne (by rw [h])
    simp only [LWorld.handle] at hh
    cases hndb : w.heap[b]? with
    | none => simp [hndb] at hh
    | some ndb =>
      simp only [hndb, Option.some.injEq] at hh
      have hb : b < w.heap.length := (List.getElem?_eq_some_iff.mp hndb).1
      have hgb : (w.heap.set a0 (⟨⟨.COW_SHARED, nd0.next.ptr_⟩, nd0.s⟩ : Node) ++
          [(⟨⟨.COW_SHARED, nd0.next.ptr_⟩, nd0.s⟩ : Node)])[b]? = some ndb := by
        rw [List.getElem?_append_left (by simpa using hb)]
        simp [Ne.symm hb0, hndb]
      refine ⟨⟨(w.heap.set a0 (⟨⟨.COW_SHARED, nd0.next.ptr_⟩, nd0.s⟩ : Node) ++
          [(⟨⟨.COW_SHARED, nd0.next.ptr_⟩, nd0.s⟩ : Node)]).set b
            ⟨⟨.COW_PRIVATE, some w.heap.length⟩, ndb.s⟩, w.vars⟩,
        ?_, ?_, ?_, ?_, ?_, ?_⟩
      · simp [put, LWorld.handle, hndb, hh, make_shared_copy, hnd, LWorld.setHandle, hgb]
      · simp
      · simp only
        rw [List.getElem?_set_ne (by omega)]
        simp
      · intro a nd ha
        have hlt : a < w.heap.length := (List.getElem?_eq_some_iff.mp ha).1
        by_cases hba : b = a
        · subst hba
          rw [hndb] at ha
          simp only [Option.some.injEq] at ha
          subst ha
          refine ⟨⟨⟨.COW_PRIVATE, some w.heap.length⟩, ndb.s⟩, ?_, rfl, fun h => absurd rfl h⟩
          simp only
          rw [List.getElem?_set_self (by simp; omega)]
        · obtain ⟨nd1, h1, h2, h3⟩ := hold a nd ha
          refine ⟨nd1, ?_, h2, fun _ => h3⟩
          simp only
          rw [List.getElem?_set_ne hba]
          exact h1
      · refine ⟨⟨.COW_PRIVATE, some w.heap.length⟩, ?_, rfl⟩
        simp only [LWorld.handle]
        rw [List.getElem?_set_self (by simp; omega)]
      · intro y _
        rfl

theorem handle_next_lt (w : LWorld) (b : Nat) (c : CowPtr) (hh : w.handle (.next b) = some c) :
    b < w.heap.length := by
  simp only [LWorld.handle] at hh
  cases hb : w.heap[b]? with
  | none => simp [hb] at hh
  | some nd => exact (List.getElem?_eq_some_iff.mp hb).1

theorem handle_ptr_frame (w1 w3 : LWorld) (loc : Loc) (c : CowPtr)
    (hh : w1.handle loc = some c)
    (hf : ∀ (b : Nat) (nd : Node), loc = .next b → w1.heap[b]? = some nd → ∃ nd1 : Node,
      w3.heap[b]? = some nd1 ∧ nd1.next.ptr_ = nd.next.ptr_)
    (hv : ∀ y, loc = .var y → w3.vars y = w1.vars y) :
    ∃ c1, w3.handle loc = some c1 ∧ c1.ptr_ = c.ptr_ := by
  cases loc with
  | var y =>
    simp only [LWorld.handle] at hh ⊢
    rw [hv y rfl]
    exact ⟨c, hh, rfl⟩
  | next b =>
    simp only [LWorld.handle] at hh ⊢
    cases hb : w1.heap[b]? with
    | none => simp [hb] at hh
    | some nd =>
      simp only [hb, Option.some.injEq] at hh
      obtain ⟨nd1, h1, h3⟩ := hf b nd rfl hb
      refine ⟨nd1.next, by simp [h1], ?_⟩
      rw [h3, hh]

theorem storeS_ok (w : LWorld) (q : Nat) (nd : Node) (x : String) (hq : w.heap[q]? = some nd) :
    storeS w q x = .ok ⟨w.heap.set q ⟨nd.next, x⟩, w.vars⟩ := by
  simp [storeS, hq]

theorem path_copy_from (n : Nat) : ∀ (w : LWorld) (loc : Loc) (p : Option Nat)
    (l : List (Nat × String)) (x : String),
    w.handle loc = some ⟨.COW_SHARED, p⟩ → Chain w p l → n < l.length →
    (∀ e ∈ l, loc ≠ .next e.1) →
    ∃ w2 q w3, descend w loc n = .ok (w2, q) ∧ putS w2 q x = .ok w3 ∧
      (∃ c, w3.handle loc = some c ∧ c.ptr_ = some w.heap.length) ∧
      Chain w3 (some w.heap.length) (copiedPath w.heap.length x n l) ∧
      (∀ (a : Nat) (nd : Node), w.heap[a]? = some nd → ∃ nd1 : Node,
        w3.heap[a]? = some nd1 ∧ nd1.s = nd.s ∧
        (loc ≠ .next a → nd1.next.ptr_ = nd.next.ptr_)) ∧
      (∀ y, loc ≠ .var y → w3.vars y = w.vars y) := by
  induction n with
  | zero =>
    intro w loc p l x hh hc hn hloc
    cases l with
    | nil => simp at hn
    | cons e r =>
      obtain ⟨hp, nd0, hnd, hs, hr⟩ := hc
      subst hp
      obtain ⟨w1, h1, hlen, hnew, hfr, hhd, hvars⟩ :=
        put_shared_step w loc e.1 nd0 hh hnd (hloc e (List.mem_cons_self _ _))
      have hlocL : loc ≠ .next w.heap.length := by
        intro h
        rw [h] at hh
        have := handle_next_lt w _ _ hh
        omega
      have hfr3 : ∀ (a : Nat) (nd : Node), a ≠ w.heap.length → w1.heap[a]? = some nd →
          (w1.heap.set w.heap.length ⟨⟨.COW_SHARED, nd0.next.ptr_⟩, x⟩)[a]? = some nd := by
        intro a nd haL ha
        rw [List.getElem?_set_ne (Ne.symm haL)]
        exact ha
      have hold : ∀ (a : Nat) (nd : Node), w.heap[a]? = some nd → ∃ nd1 : Node,
          (w1.heap.set w.heap.length ⟨⟨.COW_SHARED, nd0.next.ptr_⟩, x⟩)[a]? = some nd1 ∧
          nd1.s = nd.s ∧ (loc ≠ .next a → nd1.next.ptr_ = nd.next.ptr_) := by
        intro a nd ha
        have hlt : a < w.heap.length := (List.getElem?_eq_some_iff.mp ha).1
        obtain ⟨nd1, g1, g2, g3⟩ := hfr a nd ha
        exact ⟨nd1, hfr3 a nd1 (by omega) g1, g2, g3⟩
      refine ⟨w, loc, ⟨w1.heap.set w.heap.length ⟨⟨.COW_SHARED, nd0.next.ptr_⟩, x⟩, w1.vars⟩,
        rfl, ?_, ?_, ?_, hold, ?_⟩
      · simp only [putS, h1]
        exact storeS_ok w1 w.heap.length _ x hnew
      · obtain ⟨c, hc1, hc2⟩ := hhd
        obtain ⟨c1, h2, h3⟩ := handle_ptr_frame w1
          ⟨w1.heap.set w.heap.length ⟨⟨.COW_SHARED, nd0.next.ptr_⟩, x⟩, w1.vars⟩ loc c hc1
          (by
            intro b nd hb hnb
            refine ⟨nd, hfr3 b nd ?_ hnb, rfl⟩
            intro hbL
            exact hlocL (by rw [hb, hbL]))
          (fun _ _ => rfl)
        exact ⟨c1, h2, by rw [h3, hc2]⟩
      · refine ⟨rfl, ⟨⟨.COW_SHARED, nd0.next.ptr_⟩, x⟩, ?_, rfl, ?_⟩
        · exact List.getElem?_set_self (by omega)
        · refine chain_frame w _ r _ hr ?_
          intro e2 he2 nd hnd2
          obtain ⟨nd1, g1, g2, g3⟩ := hold e2.1 nd hnd2
          exact ⟨nd1, g1, g2, g3 (hloc e2 (List.mem_cons_of_mem _ he2))⟩
      · intro y hy
        exact hvars y hy
  | succ n ih =>
    intro w loc p l x hh hc hn hloc
    cases l with
    | nil => simp at hn
    | cons e r =>
      obtain ⟨hp, nd0, hnd, hs, hr⟩ := hc
      subst hp
      obtain ⟨w1, h1, hlen, hnew, hfr, hhd, hvars⟩ :=
        put_shared_step w loc e.1 nd0 hh hnd (hloc e (List.mem_cons_self _ _))
      have hlocL : loc ≠ .next w.heap.length := by
        intro h
        rw [h] at hh
        have := handle_next_lt w _ _ hh
        omega
      have hvalid := chain_valid w r _ hr
      have hr1 : Chain w1 nd0.next.ptr_ r := by
        refine chain_frame w w1 r _ hr ?_
        intro e2 he2 nd hnd2
        obtain ⟨nd1, g1, g2, g3⟩ := hfr e2.1 nd hnd2
        exact ⟨nd1, g1, g2, g3 (hloc e2 (List.mem_cons_of_mem _ he2))⟩
      have hh1 : w1.handle (.next w.heap.length) = some ⟨.COW_SHARED, nd0.next.ptr_⟩ := by
        simp [LWorld.handle, hnew]
      obtain ⟨w2, q, w3, k1, k2, ⟨c3, k3, k3p⟩, k4, k5, k6⟩ :=
        ih w1 (.next w.heap.length) nd0.next.ptr_ r x hh1 hr1
          (by simpa using hn)
          (by
            intro e2 he2 heq
            have := hvalid e2 he2
            simp only [Loc.next.injEq] at heq
            omega)
      rw [hlen] at k3p k4
      have hold : ∀ (a : Nat) (nd : Node), w.heap[a]? = some nd → ∃ nd1 : Node,
          w3.heap[a]? = some nd1 ∧ nd1.s = nd.s ∧
          (loc ≠ .next a → nd1.next.ptr_ = nd.next.ptr_) := by
        intro a nd ha
        have hlt : a < w.heap.length := (List.getElem?_eq_some_iff.mp ha).1
        obtain ⟨nd1, g1, g2, g3⟩ := hfr a nd ha
        obtain ⟨nd2, f1, f2, f3⟩ := k5 a nd1 g1
        refine ⟨nd2, f1, by rw [f2, g2], fun hl => ?_⟩
        rw [f3 (by simp only [ne_eq, Loc.next.injEq]; omega), g3 hl]
      refine ⟨w2, q, w3, ?_, k2, ?_, ?_, hold, ?_⟩
      · simp only [descend, putNext, h1, k1]
      · obtain ⟨c, hc1, hc2⟩ := hhd
        obtain ⟨c1, h2, h3⟩ := handle_ptr_frame w1 w3 loc c hc1
          (by
            intro b nd hb hnb
            obtain ⟨nd2, f1, _, f3⟩ := k5 b nd hnb
            refine ⟨nd2, f1, f3 ?_⟩
            intro heq
            simp only [Loc.next.injEq] at heq
            exact hlocL (by rw [hb, heq]))
          (fun y _ => k6 y (by simp))
        exact ⟨c1, h2, by rw [h3, hc2]⟩
      · obtain ⟨ndL, f1, f2, _⟩ := k5 w.heap.length _ hnew
        have hc3 : c3 = ndL.next := by
          simp only [LWorld.handle, f1, Option.some.injEq] at k3
          exact k3.symm
        refine ⟨rfl, ndL, f1, ?_, ?_⟩
        · rw [f2, hs]
        · rw [← hc3, k3p]
          exact k4
      · intro y hy
        rw [k6 y (by simp), hvars y hy]

theorem copiedPath_snd (n : Nat) : ∀ (L : Nat) (x : String) (l : List (Nat × String)),
    n < l.length → (copiedPath L x n l).map Prod.snd = (l.map Prod.snd).set n x := by
  induction n with
  | zero =>
    intro L x l hn
    cases l with
    | nil => simp at hn
    | cons e r => simp [copiedPath]
  | succ n ih =>
    intro L x l hn
    cases l with
    | nil => simp at hn
    | cons e r =>
      simp only [copiedPath, List.map_cons, List.set_cons_succ]
      rw [ih (L + 1) x r (by simpa using hn)]

theorem copiedPath_fst (n : Nat) : ∀ (L : Nat) (x : String) (l : List (Nat × String)),
    n < l.length →
    (copiedPath L x n l).map Prod.fst = List.range' L (n + 1) ++ (l.map Prod.fst).drop (n + 1) := by
  induction n with
  | zero =>
    intro L x l hn
    cases l with
    | nil => simp at hn
    | cons e r => simp [copiedPath, List.range']
  | succ n ih =>
    intro L x l hn
    cases l with
    | nil => simp at hn
    | cons e r =>
      simp only [copiedPath, List.map_cons, List.drop_succ_cons]
      rw [ih (L + 1) x r (by simpa using hn)]
      simp [List.range']

theorem copiedPath_length (n : Nat) : ∀ (L : Nat) (x : String) (l : List (Nat × String)),
    (copiedPath L x n l).length = l.length := by
  induction n with
  | zero =>
    intro L x l
    cases l with
    | nil => rfl
    | cons e r => rfl
  | succ n ih =>
    intro L x l
    cases l with
    | nil => rfl
    | cons e r => simp [copiedPath, ih]

/-- Path copying from any list that ends: the list read from `head` is the
same afterwards, and the list read from `head2` is `copiedPath`. -/
theorem path_copy_chain (w : LWorld) (head head2 n fuel : Nat) (x : String)
    (l : List (Nat × String)) (hw : walkVar w fuel head = some l)
    (h2 : w.vars head2 = none) (hn : n < l.length) :
    ∃ w3, pathCopy w head head2 n x = .ok w3 ∧
      walkVar w3 fuel head = some l ∧
      walkVar w3 fuel head2 = some (copiedPath w.heap.length x n l) ∧
      (∀ e ∈ l, e.1 < w.heap.length) := by
  simp only [walkVar, get, LWorld.handle] at hw
  cases hc : w.vars head with
  | none => simp [hc] at hw
  | some c =>
    simp only [hc] at hw
    obtain ⟨hch, hlen⟩ := chain_of_walk w fuel c.ptr_ l hw
    have hne : head ≠ head2 := by
      rintro rfl
      simp [h2] at hc
    have hcopy : copyCtor w head2 (.var head) = .ok ⟨w.heap, fun k =>
        if k = head then some ⟨.COW_SHARED, c.ptr_⟩
        else if k = head2 then some ⟨.COW_SHARED, c.ptr_⟩ else w.vars k⟩ := by
      simp [copyCtor, h2, LWorld.handle, hc, LWorld.setHandle]
    obtain ⟨w2, q, w3, k1, k2, ⟨c3, k3, k3p⟩, k4, k5, k6⟩ :=
      path_copy_from n ⟨w.heap, fun k =>
        if k = head then some ⟨.COW_SHARED, c.ptr_⟩
        else if k = head2 then some ⟨.COW_SHARED, c.ptr_⟩ else w.vars k⟩ (.var head2) c.ptr_ l x
        (by simp [LWorld.handle, hne.symm])
        (chain_frame w _ l _ hch (fun e _ nd hnd => ⟨nd, hnd, rfl, rfl⟩)) hn
        (by intro e _ h; cases h)
    refine ⟨w3, ?_, ?_, ?_, chain_valid w l _ hch⟩
    · simp only [pathCopy, hcopy, k1, k2]
    · have hv : w3.vars head = some ⟨.COW_SHARED, c.ptr_⟩ := by
        rw [k6 head (by simp [hne.symm])]
        simp
      simp only [walkVar, get, LWorld.handle, hv]
      refine walk_of_chain w3 l _ fuel ?_ hlen
      refine chain_frame _ w3 l _
        (chain_frame w _ l _ hch (fun e _ nd hnd => ⟨nd, hnd, rfl, rfl⟩)) ?_
      intro e _ nd hnd
      obtain ⟨nd1, g1, g2, g3⟩ := k5 e.1 nd hnd
      exact ⟨nd1, g1, g2, g3 (by simp)⟩
    · simp only [LWorld.handle] at k3
      simp only [walkVar, get, LWorld.handle, k3, k3p]
      exact walk_of_chain w3 _ _ fuel k4 (by rw [copiedPath_length]; exact hlen)

theorem handle_congr (w w1 : LWorld) (p : Loc) (hv : w1.vars = w.vars)
    (hf : ∀ b, p = .next b → w1.heap[b]? = w.heap[b]?) : w1.handle p = w.handle p := by
  cases p with
  | var y => simp [LWorld.handle, hv]
  | next b => simp [LWorld.handle, hf b rfl]

theorem put_private_ok (w : LWorld) (p : Loc) (a : Option Nat)
    (hh : w.handle p = some ⟨.COW_PRIVATE, a⟩) : put w p = .ok (w, a) := by
  simp [put, hh]

theorem buildLoop_spec (xs : List String) : ∀ (w : LWorld) (p : Loc) (a : Nat),
    w.handle p = some ⟨.COW_PRIVATE, some a⟩ →
    w.heap[a]? = some ⟨⟨.COW_SHARED, none⟩, ""⟩ → p ≠ .next a →
    ∃ w1 p1 l, buildLoop w p xs = .ok (w1, p1) ∧ Chain w1 (some a) l ∧
      l.map Prod.snd = xs ++ [""] ∧
      (∀ (b : Nat) (nd : Node), b ≠ a → w.heap[b]? = some nd → w1.heap[b]? = some nd) ∧
      w1.vars = w.vars := by
  induction xs with
  | nil =>
    intro w p a hh ha _
    exact ⟨w, p, [(a, "")], rfl, ⟨rfl, _, ha, rfl, rfl⟩, rfl, fun _ _ _ h => h, rfl⟩
  | cons x r ih =>
    intro w p a hh ha hpa
    have halt : a < w.heap.length := (List.getElem?_eq_some_iff.mp ha).1
    have hS : putS w p x = .ok (⟨w.heap.set a (⟨⟨.COW_SHARED, none⟩, x⟩ : Node), w.vars⟩ : LWorld) := by
      simp only [putS, put_private_ok w p _ hh]
      exact storeS_ok w a _ x ha
    have hh2 : LWorld.handle (⟨(w.heap.set a (⟨⟨.COW_SHARED, none⟩, x⟩ : Node) ++ [(⟨⟨.COW_SHARED, none⟩, ""⟩ : Node)]), w.vars⟩ : LWorld) p = some ⟨.COW_PRIVATE, some a⟩ := by
      rw [handle_congr w (⟨(w.heap.set a (⟨⟨.COW_SHARED, none⟩, x⟩ : Node) ++ [(⟨⟨.COW_SHARED, none⟩, ""⟩ : Node)]), w.vars⟩ : LWorld) p rfl ?_, hh]
      intro b hb
      have hba : b ≠ a := fun h => hpa (by rw [hb, h])
      rw [hb] at hh
      have hblt := handle_next_lt w b _ hh
      simp only
      rw [List.getElem?_append_left (by simpa using hblt), List.getElem?_set_ne (Ne.symm hba)]
    have hga : (w.heap.set a (⟨⟨.COW_SHARED, none⟩, x⟩ : Node) ++ [(⟨⟨.COW_SHARED, none⟩, ""⟩ : Node)])[a]? = some (⟨⟨.COW_SHARED, none⟩, x⟩ : Node) := by
      rw [List.getElem?_append_left (by simpa using halt)]
      simp [halt]
    have hA : putNextAssign (⟨w.heap.set a (⟨⟨.COW_SHARED, none⟩, x⟩ : Node), w.vars⟩ : LWorld) p = .ok (⟨((w.heap.set a (⟨⟨.COW_SHARED, none⟩, x⟩ : Node) ++ [(⟨⟨.COW_SHARED, none⟩, ""⟩ : Node)]).set a (⟨⟨.COW_PRIVATE, some w.heap.length⟩, x⟩ : Node)), w.vars⟩ : LWorld) := by
      simp only [putNextAssign, make_shared_default, List.length_set]
      rw [put_private_ok _ p _ hh2]
      simp [moveAssignTemp, LWorld.handle, LWorld.setHandle, hga]
    have hh3 : LWorld.handle (⟨((w.heap.set a (⟨⟨.COW_SHARED, none⟩, x⟩ : Node) ++ [(⟨⟨.COW_SHARED, none⟩, ""⟩ : Node)]).set a (⟨⟨.COW_PRIVATE, some w.heap.length⟩, x⟩ : Node)), w.vars⟩ : LWorld) p = some ⟨.COW_PRIVATE, some a⟩ := by
      rw [handle_congr (⟨(w.heap.set a (⟨⟨.COW_SHARED, none⟩, x⟩ : Node) ++ [(⟨⟨.COW_SHARED, none⟩, ""⟩ : Node)]), w.vars⟩ : LWorld) (⟨((w.heap.set a (⟨⟨.COW_SHARED, none⟩, x⟩ : Node) ++ [(⟨⟨.COW_SHARED, none⟩, ""⟩ : Node)]).set a (⟨⟨.COW_PRIVATE, some w.heap.length⟩, x⟩ : Node)), w.vars⟩ : LWorld) p rfl ?_, hh2]
      intro b hb
      have hba : b ≠ a := fun h => hpa (by rw [hb, h])
      simp only
      rw [List.getElem?_set_ne (Ne.symm hba)]
    have hN : putNext (⟨((w.heap.set a (⟨⟨.COW_SHARED, none⟩, x⟩ : Node) ++ [(⟨⟨.COW_SHARED, none⟩, ""⟩ : Node)]).set a (⟨⟨.COW_PRIVATE, some w.heap.length⟩, x⟩ : Node)), w.vars⟩ : LWorld) p = .ok ((⟨((w.heap.set a (⟨⟨.COW_SHARED, none⟩, x⟩ : Node) ++ [(⟨⟨.COW_SHARED, none⟩, ""⟩ : Node)]).set a (⟨⟨.COW_PRIVATE, some w.heap.length⟩, x⟩ : Node)), w.vars⟩ : LWorld), .next a) := by
      simp only [putNext, put_private_ok _ p _ hh3]
    have hnodeA : ((w.heap.set a (⟨⟨.COW_SHARED, none⟩, x⟩ : Node) ++ [(⟨⟨.COW_SHARED, none⟩, ""⟩ : Node)]).set a (⟨⟨.COW_PRIVATE, some w.heap.length⟩, x⟩ : Node))[a]? = some (⟨⟨.COW_PRIVATE, some w.heap.length⟩, x⟩ : Node) := by
      rw [List.getElem?_set_self (by simp; omega)]
    have hnodeL : ((w.heap.set a (⟨⟨.COW_SHARED, none⟩, x⟩ : Node) ++ [(⟨⟨.COW_SHARED, none⟩, ""⟩ : Node)]).set a (⟨⟨.COW_PRIVATE, some w.heap.length⟩, x⟩ : Node))[w.heap.length]? = some (⟨⟨.COW_SHARED, none⟩, ""⟩ : Node) := by
      rw [List.getElem?_set_ne (by omega)]
      simp
    obtain ⟨w1, p1, l, k1, k2, k3, k4, k5⟩ := ih (⟨((w.heap.set a (⟨⟨.COW_SHARED, none⟩, x⟩ : Node) ++ [(⟨⟨.COW_SHARED, none⟩, ""⟩ : Node)]).set a (⟨⟨.COW_PRIVATE, some w.heap.length⟩, x⟩ : Node)), w.vars⟩ : LWorld) (.next a) w.heap.length
      (by simp only [LWorld.handle, hnodeA])
      hnodeL
      (by simp only [ne_eq, Loc.next.injEq]; omega)
    refine ⟨w1, p1, (a, x) :: l, ?_, ?_, ?_, ?_, k5⟩
    · simp only [buildLoop, hS, hA, hN, k1]
    · exact ⟨rfl, _, k4 a _ (by omega) hnodeA, rfl, k2⟩
    · simp [k3]
    · intro b nd hba hb
      have hblt : b < w.heap.length := (List.getElem?_eq_some_iff.mp hb).1
      refine k4 b nd (by omega) ?_
      show ((w.heap.set a (⟨⟨.COW_SHARED, none⟩, x⟩ : Node) ++ [(⟨⟨.COW_SHARED, none⟩, ""⟩ : Node)]).set a (⟨⟨.COW_PRIVATE, some w.heap.length⟩, x⟩ : Node))[b]? = some nd
      rw [List.getElem?_set_ne (Ne.symm hba),
        List.getElem?_append_left (by simpa using hblt), List.getElem?_set_ne (Ne.symm hba)]
      exact hb

theorem chain_length_snd (l : List (Nat × String)) (ys : List String)
    (h : l.map Prod.snd = ys) : l.length = ys.length := by
  rw [← h, List.length_map]

/-- The list built as in `list_test` from the strings `xs`: it is read from
`head`, holds the strings `xs` followed by the empty string of the last
instance, and no other variable is alive. -/
theorem build_spec (head : Nat) (xs : List String) :
    ∃ w l, build head xs = .ok w ∧ walkVar w (xs.length + 2) head = some l ∧
      l.map Prod.snd = xs ++ [""] ∧ ∀ y, y ≠ head → w.vars y = none := by
  obtain ⟨w1, p1, l, k1, k2, k3, _, k5⟩ := buildLoop_spec xs
    ⟨[⟨⟨.COW_SHARED, none⟩, ""⟩], fun k => if k = head then some ⟨.COW_PRIVATE, some 0⟩
      else none⟩ (.var head) 0 (by simp [LWorld.handle]) rfl (by simp)
  refine ⟨w1, l, ?_, ?_, k3, ?_⟩
  · simp [build, make_shared_default, valueCtor, LWorld.setHandle, k1]
  · have hv : w1.vars head = some ⟨.COW_PRIVATE, some 0⟩ := by
      rw [k5]
      simp
    simp only [walkVar, get, LWorld.handle, hv]
    refine walk_of_chain w1 l _ _ k2 ?_
    rw [chain_length_snd l _ k3]
    simp
  · intro y hy
    rw [k5]
    simp [hy]

/-- C17. Path copying in a list of handles.  For the list built as in
`list_test` from the strings `xs` (its instances hold `xs` and, last, the empty
string), for every `n` smaller than the number of instances: copy-constructing
`head2` from `head`, descending `n` links from `head2` through `put()->next`
and writing `x` through `put()` succeeds; afterwards `head` reads the same
instances and strings as before, `head2` reads the old strings with `x` at
position `n`, its instances at positions `0..n` are new ones (numbered from the
old heap size, while every instance of `head` is below it), and its instances
after position `n` are those of `head`. -/
theorem path_copying (xs : List String) (head head2 n : Nat) (x : String)
    (hne : head2 ≠ head) (hn : n < xs.length + 1) :
    ∃ w l w3 l2, build head xs = .ok w ∧
      walkVar w (xs.length + 2) head = some l ∧
      l.map Prod.snd = xs ++ [""] ∧
      pathCopy w head head2 n x = .ok w3 ∧
      walkVar w3 (xs.length + 2) head = some l ∧
      walkVar w3 (xs.length + 2) head2 = some l2 ∧
      l2.map Prod.snd = (xs ++ [""]).set n x ∧
      l2.map Prod.fst = List.range' w.heap.length (n + 1) ++ (l.map Prod.fst).drop (n + 1) ∧
      (∀ a ∈ l.map Prod.fst, a < w.heap.length) := by
  obtain ⟨w, l, hb, hw, hl, hv⟩ := build_spec head xs
  have hlen : l.length = xs.length + 1 := by
    rw [chain_length_snd l _ hl]
    simp
  obtain ⟨w3, h1, h2, h3, h4⟩ :=
    path_copy_chain w head head2 n (xs.length + 2) x l hw (hv head2 hne) (by omega)
  refine ⟨w, l, w3, _, hb, hw, hl, h1, h2, h3, ?_, ?_, ?_⟩
  · rw [copiedPath_snd n _ x l (by omega), hl]
  · exact copiedPath_fst n _ x l (by omega)
  · intro a ha
    obtain ⟨e, he, rfl⟩ := List.mem_map.mp ha
    exact h4 e he

end ListTest

/-! ## The theorems at concrete worlds -/

theorem sharing_then_write_isolation_witness :
    ∃ w1 w2 q, copyCtor demoWorld 1 0 = .ok w1 ∧ put w1 1 = .ok (w2, some q) ∧
      readValue (w2.store q 9) 0 = some 7 ∧ readValue (w2.store q 9) 1 = some 9 :=
  sharing_then_write_isolation demoWorld 0 1 0 7 9 ⟨⟨.COW_PRIVATE, some 0⟩, rfl, rfl, rfl⟩ rfl

theorem put_write_access_witness :
    (∃ w1 q, put demoWorld2 1 = .ok (w1, some q) ∧ demoWorld2.deref q = none ∧
      w1.deref q = some 8 ∧ w1.handles 1 = some ⟨.COW_PRIVATE, some q⟩ ∧
      w1.deref 1 = some 8) ∧
    put demoWorld2 0 = .ok (demoWorld2, some 0) := by
  constructor
  · obtain ⟨w1, q, h1, h2, _, h4, h5, _, h7⟩ :=
      (put_write_access demoWorld2 1 1 ⟨.COW_SHARED, some 1⟩ 8 rfl rfl rfl).1 rfl
    exact ⟨w1, q, h1, h2, h4, h5, h7⟩
  · exact ((put_write_access demoWorld2 0 0 ⟨.COW_PRIVATE, some 0⟩ 7 rfl rfl rfl).2 rfl).1

theorem exclusivity_invariant_witness :
    run World.empty [.valueCtor 0 7, .copyCtor 1 0, .copyCtor 2 1, .put 1, .store 1 9]
      = .ok sharedWorld ∧
    sharedWorld.handles 0 = some ⟨.COW_SHARED, some 0⟩ ∧
    sharedWorld.handles 2 = some ⟨.COW_SHARED, some 0⟩ ∧
    sharedWorld.handles 1 = some ⟨.COW_PRIVATE, some 1⟩ ∧
    ExclusiveUnique sharedWorld ∧
    ((⟨.COW_SHARED, some 0⟩ : CowPtr).mode_ = .COW_SHARED ∧
      (⟨.COW_SHARED, some 0⟩ : CowPtr).mode_ = .COW_SHARED) ∧
    (∃ w1 q, put sharedWorld 0 = .ok (w1, some q) ∧ q = 2 ∧
      w1.handles 2 = some ⟨.COW_SHARED, some 0⟩ ∧
      ExclusiveUnique w1 ∧
      ∀ k d, w1.handles k = some d → d.ptr_ = some q → k = 0) :=
  ⟨rfl, rfl, rfl, rfl,
    (exclusivity_invariant sharedWorld
      ⟨[.valueCtor 0 7, .copyCtor 1 0, .copyCtor 2 1, .put 1, .store 1 9], rfl⟩).1,
    (exclusivity_invariant sharedWorld
      ⟨[.valueCtor 0 7, .copyCtor 1 0, .copyCtor 2 1, .put 1, .store 1 9], rfl⟩).2.1 0 2 ⟨.COW_SHARED, some 0⟩
      ⟨.COW_SHARED, some 0⟩ 0 (by decide) rfl rfl rfl rfl,
    _, 2, rfl, rfl, rfl,
    (exclusivity_invariant _
      ⟨[.valueCtor 0 7, .copyCtor 1 0, .copyCtor 2 1, .put 1, .store 1 9, .put 0], rfl⟩).1,
    (exclusivity_invariant sharedWorld
      ⟨[.valueCtor 0 7, .copyCtor 1 0, .copyCtor 2 1, .put 1, .store 1 9], rfl⟩).2.2 0 _ 2 rfl⟩

theorem copyCtor_postcondition_witness :
    ∃ w1, copyCtor demoWorld 1 0 = .ok w1 ∧
      w1.handles 1 = some ⟨.COW_SHARED, some 0⟩ ∧
      w1.handles 0 = some ⟨.COW_SHARED, some 0⟩ ∧
      w1.heap = demoWorld.heap := by
  obtain ⟨w1, h1, h2, h3, h4, _⟩ :=
    copyCtor_postcondition demoWorld 0 1 ⟨.COW_PRIVATE, some 0⟩ rfl rfl
  exact ⟨w1, h1, h2, h3, h4⟩

theorem duplication_demotes_source_witness :
    ∃ w1 w2 q, copyCtor demoWorld 1 0 = .ok w1 ∧ put w1 0 = .ok (w2, some q) ∧
      q ≠ 0 ∧ w2.deref q = some 7 ∧
      w2.handles 1 = some ⟨.COW_SHARED, some 0⟩ ∧ readValue w2 1 = some 7 := by
  obtain ⟨w1, w2, q, h1, h2, h3, _, h5, _, h7, _, h9⟩ :=
    duplication_demotes_source demoWorld 0 1 0 7 rfl rfl rfl
  exact ⟨w1, w2, q, h1, h2, h3, h5, h7, h9⟩

theorem assign_frame_witness :
    ∃ w1, assign demoWorld2 1 (some 0) = .ok w1 ∧
      w1.handles 1 = some ⟨.COW_PRIVATE, some 0⟩ ∧ readValue w1 0 = readValue demoWorld2 0 := by
  obtain ⟨w1, h1, _, h3, _, _, h6⟩ :=
    assign_frame demoWorld2 1 ⟨.COW_SHARED, some 1⟩ (some 0) rfl
  exact ⟨w1, h1, h3, h6 0 (by decide)⟩

theorem chained_sharing_witness :
    ∃ w1 w2 w3 q, copyCtor demoWorld 1 0 = .ok w1 ∧ copyCtor w1 2 1 = .ok w2 ∧
      put w2 1 = .ok (w3, some q) ∧
      readValue (w3.store q 9) 0 = some 7 ∧ readValue (w3.store q 9) 2 = some 7 := by
  obtain ⟨w1, w2, h1, h2, h3⟩ :=
    chained_sharing demoWorld 0 1 2 0 7 9 rfl rfl rfl rfl (by decide)
  obtain ⟨w3, q, h4, h5, h6, _⟩ :=
    h3 1 0 2 (by simp) (by simp) (by simp) (by decide) (by decide) (by decide)
  exact ⟨w1, w2, w3, q, h1, h2, h4, h5, h6⟩

theorem container_of_handles_witness :
    ∃ w1 w2, copyMap demoWorld2 [(0, 0, 10), (1, 1, 11)] = .ok w1 ∧
      writeEven (fun k => k.toNat + 100) w1 [(0, 0, 10), (1, 1, 11)] = .ok w2 ∧
      readValue w2 0 = readValue demoWorld2 0 ∧
      readValue w2 10 = some 100 ∧
      readValue w2 11 = readValue w2 1 := by
  obtain ⟨w1, w2, h1, h2, h3⟩ :=
    container_of_handles (fun k => k.toNat + 100) [(0, 0, 10), (1, 1, 11)] demoWorld2
      (by decide)
      (by
        intro e he
        simp only [List.mem_cons, List.mem_singleton, List.not_mem_nil, or_false] at he
        rcases he with rfl | rfl
        · exact ⟨0, 7, _, rfl, rfl, rfl⟩
        · exact ⟨1, 8, _, rfl, rfl, rfl⟩)
      (by
        intro e he
        simp only [List.mem_cons, List.mem_singleton, List.not_mem_nil, or_false] at he
        rcases he with rfl | rfl <;> rfl)
  exact ⟨w1, w2, h1, h2, (h3 (0, 0, 10) (by simp)).1,
    (h3 (0, 0, 10) (by simp)).2.1 (by decide),
    ((h3 (1, 1, 11) (by simp)).2.2 (by decide)).2⟩

theorem copyAssign_postcondition_witness :
    ∃ w1, copyAssign demoWorld2 1 0 = .ok w1 ∧
      w1.handles 1 = some ⟨.COW_SHARED, some 0⟩ ∧
      w1.handles 0 = some ⟨.COW_SHARED, some 0⟩ ∧
      w1.heap = demoWorld2.heap := by
  obtain ⟨w1, h1, h2, h3, h4, _⟩ :=
    copyAssign_postcondition demoWorld2 1 0 ⟨.COW_SHARED, some 1⟩ ⟨.COW_PRIVATE, some 0⟩
      rfl rfl (by decide)
  exact ⟨w1, h1, h2, h3, h4⟩

theorem get_pure_witness :
    ∃ r, get demoWorld 0 = .ok (demoWorld, r) ∧ r = some 0 := by
  obtain ⟨r, h1, h2, _⟩ := get_pure demoWorld 0 ⟨.COW_PRIVATE, some 0⟩ rfl
  exact ⟨r, h1, h2⟩

theorem put_fails_iff_witness :
    (¬ ∃ e, put demoWorld 0 = .error e) ∧
    (∃ w1, defaultCtor demoWorld 1 = .ok w1 ∧ put w1 1 = .error .badDeref) := by
  obtain ⟨h1, _, h3⟩ := put_fails_iff demoWorld 0 1 ⟨.COW_PRIVATE, some 0⟩ rfl
    (by
      intro p hp
      simp only [Option.some.injEq] at hp
      subst hp
      exact ⟨7, rfl⟩) rfl
  exact ⟨fun h => by simpa using h1.mp h, h3⟩

theorem totality_except_write_witness :
    (∃ w1, copyAssign demoWorld2 1 0 = .ok w1) ∧
    (∃ w1, moveAssign demoWorld2 1 0 = .ok w1) ∧
    copyAssign demoWorld2 1 1 = .error .assertFailed := by
  obtain ⟨_, _, h3, h4, _, _, _, _, h9, _⟩ :=
    totality_except_write demoWorld2 1 0 2 ⟨.COW_SHARED, some 1⟩ ⟨.COW_PRIVATE, some 0⟩ none
      rfl rfl rfl
  exact ⟨h3 (by decide), h4 (by decide), h9⟩

theorem move_semantics_witness :
    (∃ w1, moveCtor demoWorld2 2 0 = .ok w1 ∧
      w1.handles 2 = some ⟨.COW_PRIVATE, some 0⟩ ∧ w1.handles 0 = some ⟨.COW_PRIVATE, none⟩ ∧
      put w1 0 = .ok (w1, none)) ∧
    (∃ w1, moveAssign demoWorld2 1 0 = .ok w1 ∧
      w1.handles 1 = some ⟨.COW_PRIVATE, some 0⟩ ∧ w1.handles 0 = some ⟨.COW_PRIVATE, none⟩ ∧
      put w1 0 = .ok (w1, none)) := by
  obtain ⟨⟨w1, h1, h2, h3, _, _, h6⟩, ⟨w2, g1, g2, g3, _, _, g6⟩, _⟩ :=
    move_semantics demoWorld2 0 1 2 ⟨.COW_PRIVATE, some 0⟩ ⟨.COW_SHARED, some 1⟩
      rfl rfl (by decide) rfl
  exact ⟨⟨w1, h1, h2, h3, h6 rfl⟩, ⟨w2, g1, g2, g3, g6 rfl⟩⟩

theorem path_copying_witness :
    ∃ w l w3 l2,
      ListTest.build 0 ["a", "b", "c", "d", "e", "f", "g", "h", "i", "j"] = .ok w ∧
      ListTest.walkVar w 12 0 = some l ∧
      l.map Prod.snd = ["a", "b", "c", "d", "e", "f", "g", "h", "i", "j", ""] ∧
      ListTest.pathCopy w 0 1 5 "X" = .ok w3 ∧
      ListTest.walkVar w3 12 0 = some l ∧
      ListTest.walkVar w3 12 1 = some l2 ∧
      l2.map Prod.snd = ["a", "b", "c", "d", "e", "X", "g", "h", "i", "j", ""] ∧
      l2.map Prod.fst = List.range' w.heap.length 6 ++ (l.map Prod.fst).drop 6 ∧
      (∀ a ∈ l.map Prod.fst, a < w.heap.length) :=
  ListTest.path_copying ["a", "b", "c", "d", "e", "f", "g", "h", "i", "j"] 0 1 5 "X"
    (by decide) (by decide)

end Cow
